import Mathlib

/-!
Ring fragments of the area assembler (`osmium/area/detail/proto_ring.hpp`)

A shallow embedding of `osmium::area::detail::ProtoRing`, of `combine_rings_end` and of
`combine_rings_start`, followed by theorems about them.

Conventions of the embedding.

* A `std::vector` is a `List`; `front()`/`back()` of an empty vector (undefined behaviour in
  C++) is `none`.
* A pointer or reference to a segment or to a ring is a `Nat` (its address); a pointer that may
  be `nullptr` is an `Option Nat`.
* `int32_t` coordinates and `int64_t` sums are `Int`; every `int64_t` operation is reduced to
  the two's complement range with an explicit `% 2^64` (`wrap64`).
* A call either returns, or ends the process (`exit`, a failed `assert`), or has undefined
  behaviour: `Outcome`.
* `osmium::NodeRef`, `osmium::Location` and `osmium::area::NodeRefSegment` are declared in
  other headers (`osmium/osm/noderef.hpp`, `osmium/area/segment.hpp`). `operator==` on
  `NodeRef` is a parameter (`nodeEq`) of everything that calls it, and the accessors of a
  segment are tables handed to `find_outer`, so that the theorems hold whatever those headers
  define.
-/

namespace Osmium

/-! ## Data model -/

/-- Modelled from the spec: `osmium::Location`, the type of `NodeRef::location()`, which
`proto_ring.hpp` uses through `x()`, `y()` and `operator==` without declaring it. It is a pair
of integer coordinates (32 bit in the library), and two locations are equal when both
coordinates are equal ("exact equality comparison of point locations"). -/
structure Location where
  x : Int
  y : Int
deriving DecidableEq, Repr

/-- The coordinate range of an `int32_t`. -/
def Location.inRange (l : Location) : Prop :=
  -2147483648 ≤ l.x ∧ l.x ≤ 2147483647 ∧ -2147483648 ≤ l.y ∧ l.y ≤ 2147483647

instance (l : Location) : Decidable l.inRange := by
  unfold Location.inRange; infer_instance

/-- A reference to a node, `osmium::NodeRef`, as far as `proto_ring.hpp` reads it: the node id
`ref()` and the `location()`. -/
structure NodeRef where
  ref : Int
  location : Location
deriving DecidableEq, Repr

/-- How a call ends. -/
inductive Outcome (α : Type) where
  /-- the call returns normally -/
  | returned (a : α)
  /-- the call reaches `exit(status)`: the process ends -/
  | exit (status : Nat)
  /-- an `assert(...)` fails: the process is aborted -/
  | abort
  /-- undefined behaviour (`front()` of an empty vector, ...) -/
  | undefined
deriving DecidableEq, Repr

/-- Sequencing of calls: the first call that does not return ends the computation. -/
def Outcome.bind {α β : Type} (o : Outcome α) (f : α → Outcome β) : Outcome β :=
  match o with
  | .returned a => f a
  | .exit s => .exit s
  | .abort => .abort
  | .undefined => .undefined

/-- A ring in the process of being built, `class ProtoRing`. -/
structure ProtoRing where
  /-- The member `std::vector<osmium::NodeRef> m_nodes`. -/
  m_nodes : List NodeRef
  /-- The member `const NodeRefSegment& m_first_segment`: the address of the segment. -/
  m_first_segment : Nat
  /-- The member `std::vector<ProtoRing*> m_inner`: the addresses of the inner rings. -/
  m_inner : List Nat
deriving DecidableEq, Repr

namespace ProtoRing

/-- Method `void add_location_end(const NodeRef& nr)`: `m_nodes.push_back(nr)`. -/
def add_location_end (self : ProtoRing) (nr : NodeRef) : ProtoRing :=
  { self with m_nodes := self.m_nodes ++ [nr] }

/-- Method `void add_location_start(const NodeRef& nr)`: `m_nodes.insert(m_nodes.begin(), nr)`. -/
def add_location_start (self : ProtoRing) (nr : NodeRef) : ProtoRing :=
  { self with m_nodes := nr :: self.m_nodes }

/-- The constructor `ProtoRing(const NodeRefSegment& segment)`: `segment` is the address of the
segment, `first_cw` and `second_cw` what `segment.first_cw()` and `segment.second_cw()`
return. -/
def ofSegment (segment : Nat) (first_cw second_cw : NodeRef) : ProtoRing :=
  (ProtoRing.mk [] segment []).add_location_end first_cw |>.add_location_end second_cw

/-- Method `first()`: `m_nodes.front()`. -/
def first (self : ProtoRing) : Option NodeRef := self.m_nodes.head?

/-- Method `last()`: `m_nodes.back()`. -/
def last (self : ProtoRing) : Option NodeRef := self.m_nodes.getLast?

/-- Method `bool closed() const`: `m_nodes.front().location() == m_nodes.back().location()`. -/
def closed (self : ProtoRing) : Option Bool :=
  match self.m_nodes.head?, self.m_nodes.getLast? with
  | some f, some b => some (decide (f.location = b.location))
  | _, _ => none

/-- Reduction of an integer to the range of `int64_t` (two's complement). -/
def wrap64 (z : Int) : Int := (z + 2 ^ 63) % 2 ^ 64 - 2 ^ 63

/-- Element `m_nodes[i]`; the index is in range wherever the loop of `is_outer` reads it. -/
def node (self : ProtoRing) (i : Nat) : NodeRef := self.m_nodes.getD i ⟨0, ⟨0, 0⟩⟩

/-- One iteration of the loop of `is_outer`, at index `i`: the two updates of `sum`. -/
def is_outer_step (self : ProtoRing) (sum : Int) (i : Nat) : Int :=
  let j := (i + 1) % self.m_nodes.length
  let sum := wrap64 (sum + wrap64 ((self.node i).location.x * (self.node j).location.y))
  wrap64 (sum - wrap64 ((self.node j).location.x * (self.node i).location.y))

/-- The value of `sum` when the loop of `is_outer` ends. -/
def is_outer_sum (self : ProtoRing) : Int :=
  (List.range self.m_nodes.length).foldl self.is_outer_step 0

/-- Method `bool is_outer() const`: `return sum <= 0`. -/
def is_outer (self : ProtoRing) : Bool := decide (self.is_outer_sum ≤ 0)

/-- Method `void swap_nodes(ProtoRing& other)`: `std::swap(m_nodes, other.m_nodes)`; the result is the
pair (this ring, other ring) after the call. -/
def swap_nodes (self other : ProtoRing) : ProtoRing × ProtoRing :=
  ({ self with m_nodes := other.m_nodes }, { other with m_nodes := self.m_nodes })

/-- Method `void add_inner_ring(ProtoRing* ring)`: `m_inner.push_back(ring)`. -/
def add_inner_ring (self : ProtoRing) (ring : Nat) : ProtoRing :=
  { self with m_inner := self.m_inner ++ [ring] }

/-- Method `void merge_ring(const ProtoRing& other, bool debug)`, for two distinct rings. `nodeEq` is
`operator==` on `NodeRef`. The result is the pair (this ring, other ring) after the call. In
the `else` branch the source calls `exit(3)` first, so the `assert` and the loop over
`other.nodes().rbegin() + 1 ...` behind it are never reached. -/
def merge_ring (nodeEq : NodeRef → NodeRef → Bool) (self other : ProtoRing) :
    Outcome (ProtoRing × ProtoRing) :=
  match self.last, other.first with
  | some l, some f =>
    if nodeEq l f then
      .returned (other.m_nodes.tail.foldl add_location_end self, other)
    else
      .exit 3
  | _, _ => .undefined

end ProtoRing

/-! ## The collection of rings -/

/-- The arguments `ProtoRing& ring, std::list<ProtoRing>& rings` of `combine_rings_end` and
`combine_rings_start`, where `ring` is an element of `rings`: the list is
`before ++ ring :: after` in iteration order. The element at the address `&ring` is the one in
the middle, whatever the contents of the others. -/
structure Rings where
  before : List ProtoRing
  ring : ProtoRing
  after : List ProtoRing
deriving DecidableEq, Repr

/-- The list `rings` in iteration order. -/
def Rings.toList (c : Rings) : List ProtoRing := c.before ++ c.ring :: c.after

/-- The loop of `combine_rings_end` over a stretch `its` of `rings` that does not hold `ring`
(there `&*it != &ring`); `pos` is the position in `rings` of the head of `its`. At the first
`it` with `location == it->first().location()` the loop calls `ring.merge_ring(*it, debug)`
and `rings.erase(it)` and returns: the result is the position of the erased element with the
ring after the merge, and the stretch after the loop. -/
def combine_rings_end_loop (nodeEq : NodeRef → NodeRef → Bool) (ring : ProtoRing)
    (location : Location) : List ProtoRing → Nat →
    Outcome (Option (Nat × ProtoRing) × List ProtoRing)
  | [], _ => .returned (none, [])
  | it :: its, pos =>
    match it.first with
    | none => .undefined
    | some f =>
      if location = f.location then
        (ring.merge_ring nodeEq it).bind fun merged => .returned (some (pos, merged.1), its)
      else
        (combine_rings_end_loop nodeEq ring location its (pos + 1)).bind fun r =>
          .returned (r.1, it :: r.2)

/-- The function `combine_rings_end(ProtoRing& ring, std::list<ProtoRing>& rings, bool debug)`.
The result is the returned pointer (the position in `rings` of the element that was merged and
erased, `none` for `nullptr`) and the collection after the call. -/
def combine_rings_end (nodeEq : NodeRef → NodeRef → Bool) (c : Rings) :
    Outcome (Option Nat × Rings) :=
  match c.ring.last with
  | none => .undefined
  | some l =>
    (combine_rings_end_loop nodeEq c.ring l.location c.before 0).bind fun r =>
      match r.1 with
      | some (pos, ring) => .returned (some pos, ⟨r.2, ring, c.after⟩)
      | none =>
        (combine_rings_end_loop nodeEq c.ring l.location c.after (c.before.length + 1)).bind
          fun r2 =>
            match r2.1 with
            | some (pos, ring) => .returned (some pos, ⟨c.before, ring, r2.2⟩)
            | none => .returned (none, c)

/-- The loop of `combine_rings_start` over a stretch `its` of `rings` that does not hold
`ring`. At the first `it` with `location == it->last().location()` the loop calls
`ring.swap_nodes(*it)`, then `ring.merge_ring(*it, debug)` and `rings.erase(it)`. -/
def combine_rings_start_loop (nodeEq : NodeRef → NodeRef → Bool) (ring : ProtoRing)
    (location : Location) : List ProtoRing → Nat →
    Outcome (Option (Nat × ProtoRing) × List ProtoRing)
  | [], _ => .returned (none, [])
  | it :: its, pos =>
    match it.last with
    | none => .undefined
    | some b =>
      if location = b.location then
        let swapped := ring.swap_nodes it
        (swapped.1.merge_ring nodeEq swapped.2).bind fun merged =>
          .returned (some (pos, merged.1), its)
      else
        (combine_rings_start_loop nodeEq ring location its (pos + 1)).bind fun r =>
          .returned (r.1, it :: r.2)

/-- The function `combine_rings_start(ProtoRing& ring, std::list<ProtoRing>& rings, bool debug)`.
The result is the returned pointer (the position in `rings` of the element that was erased,
`none` for `nullptr`) and the collection after the call. -/
def combine_rings_start (nodeEq : NodeRef → NodeRef → Bool) (c : Rings) :
    Outcome (Option Nat × Rings) :=
  match c.ring.first with
  | none => .undefined
  | some f =>
    (combine_rings_start_loop nodeEq c.ring f.location c.before 0).bind fun r =>
      match r.1 with
      | some (pos, ring) => .returned (some pos, ⟨r.2, ring, c.after⟩)
      | none =>
        (combine_rings_start_loop nodeEq c.ring f.location c.after (c.before.length + 1)).bind
          fun r2 =>
            match r2.1 with
            | some (pos, ring) => .returned (some pos, ⟨c.before, ring, r2.2⟩)
            | none => .returned (none, c)

/-! ## The walk to the enclosing outer ring -/

/-- The memory that `find_outer` reads: the rings by address, and for every segment (by
address) what `NodeRefSegment::left_segment()` and `NodeRefSegment::ring()` return, `none` for
`nullptr`. The two accessors are declared in `osmium/area/segment.hpp`; here they are tables,
so that every segment structure is covered. -/
structure Memory where
  rings : Nat → ProtoRing
  left_segment : Nat → Option Nat
  ring : Nat → Option Nat

/-- The method `ProtoRing* find_outer(bool debug)`, called on the ring at address `ring`.
`fuel` bounds the number of times the condition of the `while` loop is evaluated; `none`
means that the loop is still running when the fuel is used up. -/
def find_outer (m : Memory) : Nat → Nat → Option (Outcome Nat)
  | 0, _ => none
  | fuel + 1, ring =>
    if (m.rings ring).is_outer then
      some (.returned ring)
    else
      match m.left_segment (m.rings ring).m_first_segment with
      | none => some .abort
      | some left =>
        match m.ring left with
        | none => some .abort
        | some next => find_outer m fuel next

/-! ## Notions of the specification -/

/-- The term of the shoelace sum for two consecutive nodes `p`, `q`:
`x_p * y_q - x_q * y_p`. -/
def cross (p q : NodeRef) : Int :=
  p.location.x * q.location.y - q.location.x * p.location.y

/-- The shoelace sum of the specification over the integers:
the sum over `i` of `x_i * y_j - x_j * y_i` with `j = (i + 1) mod n`. -/
def shoelace (nodes : List NodeRef) : Int :=
  ∑ i in Finset.range nodes.length,
    cross (nodes.getD i ⟨0, ⟨0, 0⟩⟩) (nodes.getD ((i + 1) % nodes.length) ⟨0, ⟨0, 0⟩⟩)

/-- The ring that owns the left neighbour of the seed segment of the ring at `ring`, when the
neighbour and its owner exist. -/
def next_ring (m : Memory) (ring : Nat) : Option Nat :=
  (m.left_segment (m.rings ring).m_first_segment).bind m.ring

/-- The chain of the specification: `r_0` is the starting ring and `r_(k+1)` the ring that owns
the left neighbour of the seed segment of `r_k`. -/
def chain (m : Memory) (start : Nat) : Nat → Option Nat
  | 0 => some start
  | k + 1 => (chain m start k).bind (next_ring m)

/-- The ring `r` is `r_k` for the least `k` such that `r_k` is classified outer: `r_k = r`, the
ring `r` is outer, and no ring of the chain in front of it is. -/
def first_outer_at (m : Memory) (start k r : Nat) : Prop :=
  chain m start k = some r ∧ (m.rings r).is_outer = true ∧
    ∀ j, j < k → ∀ rj, chain m start j = some rj → (m.rings rj).is_outer = false

/-! ## Two candidates for `operator==` on `NodeRef`, for concrete evaluation -/

/-- Equality of node references by node id. -/
def same_ref (a b : NodeRef) : Bool := decide (a.ref = b.ref)

/-- Equality of node references by location, the comparison "by value" of the endpoints of the
specification. -/
def same_location (a b : NodeRef) : Bool := decide (a.location = b.location)

/-- The frame of a successful `combine_rings_end` or `combine_rings_start`, from the collection
`c` to the collection `c'` with the returned position `p`: `ring` keeps its seed segment and
its inner rings, the element at position `p` (which is not `ring`) is gone, and every other
element is the same ring at the same place relative to the others. -/
def frame_kept (c : Rings) (p : Nat) (c' : Rings) : Prop :=
  c'.ring.m_first_segment = c.ring.m_first_segment ∧
  c'.ring.m_inner = c.ring.m_inner ∧
  ((p < c.before.length ∧ c'.before = c.before.eraseIdx p ∧ c'.after = c.after) ∨
    (c.before.length < p ∧ p < c.toList.length ∧ c'.before = c.before ∧
      c'.after = c.after.eraseIdx (p - (c.before.length + 1)))) ∧
  c'.toList = (c.toList.set c.before.length c'.ring).eraseIdx p ∧
  c'.toList.length + 1 = c.toList.length

/-- Calling `combine_rings_end(ring, rings, debug)` `n` times in a row, on the same `ring`. The
result lists the `n` returned pointers and gives the collection after the last call. -/
def combine_rings_end_times (nodeEq : NodeRef → NodeRef → Bool) :
    Nat → Rings → Outcome (List (Option Nat) × Rings)
  | 0, c => .returned ([], c)
  | n + 1, c =>
    (combine_rings_end nodeEq c).bind fun r =>
      (combine_rings_end_times nodeEq n r.2).bind fun rest =>
        .returned (r.1 :: rest.1, rest.2)

/-- The node sequences of the two-node rings along a walk `q_0, q_1, ..., q_n`:
`[q_0, q_1], [q_1, q_2], ..., [q_(n-1), q_n]`. -/
def chain_nodes : List NodeRef → List (List NodeRef)
  | a :: b :: t => [a, b] :: chain_nodes (b :: t)
  | _ => []

/-- Modelled from the spec: the driving loop of the stitcher on one working ring, which is code
of the assembler and not of `proto_ring.hpp`. On the working ring `ring` of the collection it
repeatedly attempts `combine_rings_end` and then `combine_rings_start`, until the ring is
closed or neither of the two has matched. `fuel` bounds the number of rounds; `none` means
that the loop is still running when the fuel is used up. -/
def stitch (nodeEq : NodeRef → NodeRef → Bool) : Nat → Rings → Option (Outcome Rings)
  | 0, _ => none
  | fuel + 1, c =>
    match c.ring.closed with
    | none => some .undefined
    | some true => some (.returned c)
    | some false =>
      match combine_rings_end nodeEq c with
      | .returned (p1, c1) =>
        match c1.ring.closed with
        | none => some .undefined
        | some true => some (.returned c1)
        | some false =>
          match combine_rings_start nodeEq c1 with
          | .returned (p2, c2) =>
            if p1.isSome || p2.isSome then stitch nodeEq fuel c2 else some (.returned c2)
          | .exit s => some (.exit s)
          | .abort => some .abort
          | .undefined => some .undefined
      | .exit s => some (.exit s)
      | .abort => some .abort
      | .undefined => some .undefined

/-! ## Basic facts -/

namespace ProtoRing

theorem foldl_add_location_end (l : List NodeRef) (self : ProtoRing) :
    l.foldl add_location_end self = { self with m_nodes := self.m_nodes ++ l } := by
  induction l generalizing self with
  | nil => simp
  | cons a t ih => simp [List.foldl_cons, ih, add_location_end]

/-- In the `else` branch `merge_ring` ends the process with status 3. -/
theorem merge_ring_of_ne (nodeEq : NodeRef → NodeRef → Bool) (self other : ProtoRing)
    (l f : NodeRef) (hl : self.last = some l) (hf : other.first = some f)
    (hne : nodeEq l f = false) : self.merge_ring nodeEq other = .exit 3 := by
  simp [merge_ring, hl, hf, hne]

/-- In the `if` branch `merge_ring` appends the tail of the other ring. -/
theorem merge_ring_of_eq (nodeEq : NodeRef → NodeRef → Bool) (self other : ProtoRing)
    (l f : NodeRef) (hl : self.last = some l) (hf : other.first = some f)
    (heq : nodeEq l f = true) :
    self.merge_ring nodeEq other =
      .returned ({ self with m_nodes := self.m_nodes ++ other.m_nodes.tail }, other) := by
  simp [merge_ring, hl, hf, heq, foldl_add_location_end]

end ProtoRing

/-! ### The two scanning loops -/

theorem combine_rings_end_loop_none (nodeEq : NodeRef → NodeRef → Bool) (ring : ProtoRing)
    (location : Location) (its : List ProtoRing) (pos : Nat)
    (h : ∀ x ∈ its, ∃ g, x.first = some g ∧ g.location ≠ location) :
    combine_rings_end_loop nodeEq ring location its pos = .returned (none, its) := by
  induction its generalizing pos with
  | nil => rfl
  | cons it its ih =>
    obtain ⟨g, hg, hne⟩ := h it (List.mem_cons_self _ _)
    have hrest := ih (pos + 1) (fun x hx => h x (List.mem_cons_of_mem _ hx))
    simp [combine_rings_end_loop, hg, Ne.symm hne, hrest, Outcome.bind]

theorem combine_rings_end_loop_found (nodeEq : NodeRef → NodeRef → Bool) (ring : ProtoRing)
    (location : Location) (pre post : List ProtoRing) (m : ProtoRing) (f : NodeRef) (pos : Nat)
    (h : ∀ x ∈ pre, ∃ g, x.first = some g ∧ g.location ≠ location)
    (hf : m.first = some f) (hloc : f.location = location) :
    combine_rings_end_loop nodeEq ring location (pre ++ m :: post) pos =
      (ring.merge_ring nodeEq m).bind fun merged =>
        .returned (some (pos + pre.length, merged.1), pre ++ post) := by
  induction pre generalizing pos with
  | nil => simp [combine_rings_end_loop, hf, hloc]
  | cons it its ih =>
    obtain ⟨g, hg, hne⟩ := h it (List.mem_cons_self _ _)
    have hrest := ih (pos + 1) (fun x hx => h x (List.mem_cons_of_mem _ hx))
    rw [List.cons_append]
    simp only [combine_rings_end_loop, hg]
    rw [if_neg (Ne.symm hne), hrest]
    cases ring.merge_ring nodeEq m <;> simp [Outcome.bind]
    omega

theorem combine_rings_start_loop_none (nodeEq : NodeRef → NodeRef → Bool) (ring : ProtoRing)
    (location : Location) (its : List ProtoRing) (pos : Nat)
    (h : ∀ x ∈ its, ∃ g, x.last = some g ∧ g.location ≠ location) :
    combine_rings_start_loop nodeEq ring location its pos = .returned (none, its) := by
  induction its generalizing pos with
  | nil => rfl
  | cons it its ih =>
    obtain ⟨g, hg, hne⟩ := h it (List.mem_cons_self _ _)
    have hrest := ih (pos + 1) (fun x hx => h x (List.mem_cons_of_mem _ hx))
    simp [combine_rings_start_loop, hg, Ne.symm hne, hrest, Outcome.bind]

theorem combine_rings_start_loop_found (nodeEq : NodeRef → NodeRef → Bool) (ring : ProtoRing)
    (location : Location) (pre post : List ProtoRing) (m : ProtoRing) (b : NodeRef) (pos : Nat)
    (h : ∀ x ∈ pre, ∃ g, x.last = some g ∧ g.location ≠ location)
    (hb : m.last = some b) (hloc : b.location = location) :
    combine_rings_start_loop nodeEq ring location (pre ++ m :: post) pos =
      ((ring.swap_nodes m).1.merge_ring nodeEq (ring.swap_nodes m).2).bind fun merged =>
        .returned (some (pos + pre.length, merged.1), pre ++ post) := by
  induction pre generalizing pos with
  | nil => simp [combine_rings_start_loop, hb, hloc]
  | cons it its ih =>
    obtain ⟨g, hg, hne⟩ := h it (List.mem_cons_self _ _)
    have hrest := ih (pos + 1) (fun x hx => h x (List.mem_cons_of_mem _ hx))
    rw [List.cons_append]
    simp only [combine_rings_start_loop, hg]
    rw [if_neg (Ne.symm hne), hrest]
    cases (ring.swap_nodes m).1.merge_ring nodeEq (ring.swap_nodes m).2 <;> simp [Outcome.bind]
    omega

theorem getElem?_append_cons_length {α : Type} (a b : List α) (x : α) :
    (a ++ x :: b)[a.length]? = some x := by
  induction a with
  | nil => simp
  | cons y t ih => simpa using ih

/-- Where the first match of a scan over `before ++ after` lies: in `before`, or in `after`
behind all of `before`. -/
theorem split_cases {α : Type} (before after pre post : List α) (m : α)
    (h : before ++ after = pre ++ m :: post) :
    (∃ rest, before = pre ++ m :: rest ∧ post = rest ++ after) ∨
    (∃ mid, pre = before ++ mid ∧ after = mid ++ m :: post) := by
  rcases List.append_eq_append_iff.mp h with ⟨a, ha, hb⟩ | ⟨c, hc, hd⟩
  · exact Or.inr ⟨a, ha, hb⟩
  · cases c with
    | nil =>
      refine Or.inr ⟨[], by simpa using hc.symm, by simpa using hd.symm⟩
    | cons x rest =>
      simp only [List.cons_append, List.cons.injEq] at hd
      obtain ⟨hx, hpost⟩ := hd
      subst hx
      exact Or.inl ⟨rest, hc, hpost⟩

/-! ### The sum of `is_outer` -/

namespace ProtoRing

theorem wrap64_of_range (z : Int) (h1 : -2 ^ 63 ≤ z) (h2 : z < 2 ^ 63) : wrap64 z = z := by
  unfold wrap64
  omega

theorem wrap64_step (s a b : Int) :
    wrap64 (wrap64 (wrap64 s + wrap64 a) - wrap64 b) = wrap64 (s + (a - b)) := by
  unfold wrap64
  omega

/-- One iteration of the loop adds the term of the shoelace sum at index `i`. -/
theorem is_outer_step_wrap64 (self : ProtoRing) (s : Int) (i : Nat) :
    self.is_outer_step (wrap64 s) i =
      wrap64 (s + cross (self.node i) (self.node ((i + 1) % self.m_nodes.length))) := by
  simp only [is_outer_step, cross]
  exact wrap64_step _ _ _

theorem foldl_is_outer_step (self : ProtoRing) (k : Nat) :
    (List.range k).foldl self.is_outer_step 0 =
      wrap64 (∑ i in Finset.range k,
        cross (self.node i) (self.node ((i + 1) % self.m_nodes.length))) := by
  induction k with
  | zero => simp [wrap64]
  | succ k ih =>
    rw [List.range_succ, List.foldl_append, ih, Finset.sum_range_succ, cross]
    simp only [List.foldl_cons, List.foldl_nil]
    exact is_outer_step_wrap64 self _ k

/-- The loop of `is_outer` computes the shoelace sum reduced to the range of `int64_t`. -/
theorem is_outer_sum_eq (self : ProtoRing) :
    self.is_outer_sum = wrap64 (shoelace self.m_nodes) := by
  unfold is_outer_sum shoelace
  exact foldl_is_outer_step self self.m_nodes.length

/-- As long as the shoelace sum fits an `int64_t`, `is_outer` is its sign test. -/
theorem is_outer_of_range (self : ProtoRing) (h1 : -2 ^ 63 ≤ shoelace self.m_nodes)
    (h2 : shoelace self.m_nodes < 2 ^ 63) :
    self.is_outer = decide (shoelace self.m_nodes ≤ 0) := by
  unfold is_outer
  rw [is_outer_sum_eq, wrap64_of_range _ h1 h2]

end ProtoRing

/-! ### Reversal of a ring -/

theorem cross_swap (p q : NodeRef) : cross q p = -cross p q := by
  unfold cross
  ring

theorem getD_reverse (l : List NodeRef) (d : NodeRef) (i : Nat) (h : i < l.length) :
    l.reverse.getD i d = l.getD (l.length - 1 - i) d := by
  simp [List.getElem?_reverse h]

/-- The shoelace sum of a ring of `m + 1` nodes: the terms of the consecutive pairs and the
term of the pair that wraps around. -/
theorem shoelace_split (l : List NodeRef) (m : Nat) (hm : l.length = m + 1) :
    shoelace l =
      (∑ i in Finset.range m, cross (l.getD i ⟨0, ⟨0, 0⟩⟩) (l.getD (i + 1) ⟨0, ⟨0, 0⟩⟩)) +
        cross (l.getD m ⟨0, ⟨0, 0⟩⟩) (l.getD 0 ⟨0, ⟨0, 0⟩⟩) := by
  unfold shoelace
  rw [hm, Finset.sum_range_succ, Nat.mod_self]
  congr 1
  apply Finset.sum_congr rfl
  intro i hi
  rw [Nat.mod_eq_of_lt (by simpa using Finset.mem_range.mp hi)]

/-- The shoelace sum of the reversed sequence is the negation of the sum of the sequence. -/
theorem shoelace_reverse (l : List NodeRef) : shoelace l.reverse = -shoelace l := by
  cases hl : l.length with
  | zero =>
    have : l = [] := List.length_eq_zero.mp hl
    subst this
    simp [shoelace]
  | succ m =>
    have hr : l.reverse.length = m + 1 := by simpa using hl
    rw [shoelace_split l m hl, shoelace_split l.reverse m hr]
    have hlast : cross (l.reverse.getD m ⟨0, ⟨0, 0⟩⟩) (l.reverse.getD 0 ⟨0, ⟨0, 0⟩⟩) =
        -cross (l.getD m ⟨0, ⟨0, 0⟩⟩) (l.getD 0 ⟨0, ⟨0, 0⟩⟩) := by
      rw [getD_reverse l _ m (by omega), getD_reverse l _ 0 (by omega), hl, ← cross_swap]
      simp
    have hsum : (∑ i in Finset.range m,
        cross (l.reverse.getD i ⟨0, ⟨0, 0⟩⟩) (l.reverse.getD (i + 1) ⟨0, ⟨0, 0⟩⟩)) =
        -(∑ i in Finset.range m,
          cross (l.getD i ⟨0, ⟨0, 0⟩⟩) (l.getD (i + 1) ⟨0, ⟨0, 0⟩⟩)) := by
      rw [← Finset.sum_range_reflect
        (fun i => cross (l.getD i ⟨0, ⟨0, 0⟩⟩) (l.getD (i + 1) ⟨0, ⟨0, 0⟩⟩)) m,
        ← Finset.sum_neg_distrib]
      apply Finset.sum_congr rfl
      intro i hi
      have him : i < m := Finset.mem_range.mp hi
      rw [getD_reverse l _ i (by omega), getD_reverse l _ (i + 1) (by omega), hl,
        ← cross_swap]
      have h1 : m + 1 - 1 - i = m - 1 - i + 1 := by omega
      have h2 : m + 1 - 1 - (i + 1) = m - 1 - i := by omega
      rw [h1, h2]
    rw [hlast, hsum]
    ring

/-- As long as the shoelace sum is not zero and its absolute value fits an `int64_t`, the
reversed ring is classified the other way round. -/
theorem is_outer_reverse_of_range (self : ProtoRing) (h0 : shoelace self.m_nodes ≠ 0)
    (h1 : -2 ^ 63 < shoelace self.m_nodes) (h2 : shoelace self.m_nodes < 2 ^ 63) :
    ProtoRing.is_outer { self with m_nodes := self.m_nodes.reverse } = !self.is_outer := by
  rw [ProtoRing.is_outer_of_range self (le_of_lt h1) h2,
    ProtoRing.is_outer_of_range { self with m_nodes := self.m_nodes.reverse }
      (by rw [shoelace_reverse]; linarith) (by rw [shoelace_reverse]; linarith),
    shoelace_reverse]
  by_cases h : shoelace self.m_nodes ≤ 0
  · have : ¬ (-shoelace self.m_nodes ≤ 0) := by
      intro h'
      exact h0 (le_antisymm h (by linarith))
    simp [h, this]
  · have : -shoelace self.m_nodes ≤ 0 := by linarith [not_le.mp h]
    simp [h, this]

/-! ### The walk of `find_outer` along the chain -/

/-- After `k` rings of the chain that are not outer, the walk of `find_outer` stands at the
ring `r_k` with `k` evaluations of the loop condition used up. -/
theorem find_outer_along_chain (m : Memory) (start : Nat) (k : Nat) :
    ∀ (fuel r : Nat), chain m start k = some r →
      (∀ j, j < k → ∀ rj, chain m start j = some rj → (m.rings rj).is_outer = false) →
      find_outer m (fuel + k) start = find_outer m fuel r := by
  induction k with
  | zero =>
    intro fuel r hr _
    simp only [chain, Option.some.injEq] at hr
    simp [hr]
  | succ k ih =>
    intro fuel r hr hinner
    simp only [chain] at hr
    cases hk : chain m start k with
    | none => simp [hk] at hr
    | some rk =>
      rw [hk] at hr
      simp only [Option.some_bind, next_ring] at hr
      have hstep := ih (fuel + 1) rk hk (fun j hj => hinner j (Nat.lt_succ_of_lt hj))
      have hrk : (m.rings rk).is_outer = false := hinner k (Nat.lt_succ_self k) rk hk
      have hfuel : fuel + (k + 1) = fuel + 1 + k := by omega
      rw [hfuel, hstep]
      cases hl : m.left_segment (m.rings rk).m_first_segment with
      | none => simp [hl] at hr
      | some left =>
        rw [hl] at hr
        simp only [Option.some_bind] at hr
        simp [find_outer, hrk, hl, hr]

theorem chain_succ_front (m : Memory) (start : Nat) (k : Nat) :
    chain m start (k + 1) = (next_ring m start).bind fun n => chain m n k := by
  induction k with
  | zero => simp [chain]
  | succ k ih =>
    rw [chain, ih]
    cases next_ring m start with
    | none => rfl
    | some n => simp [chain]

/-- A walk of `find_outer` that returns stops at the first outer ring of the chain. -/
theorem find_outer_returned (m : Memory) (fuel : Nat) :
    ∀ (start r : Nat), find_outer m fuel start = some (.returned r) →
      ∃ k, k < fuel ∧ first_outer_at m start k r := by
  induction fuel with
  | zero => intro start r h; simp [find_outer] at h
  | succ fuel ih =>
    intro start r h
    cases ho : (m.rings start).is_outer with
    | true =>
      simp only [find_outer, ho, if_true, Option.some.injEq, Outcome.returned.injEq] at h
      subst h
      exact ⟨0, Nat.succ_pos _, rfl, ho, fun j hj => absurd hj (Nat.not_lt_zero j)⟩
    | false =>
      simp only [find_outer, ho] at h
      cases hl : m.left_segment (m.rings start).m_first_segment with
      | none => simp [hl] at h
      | some left =>
        cases hr : m.ring left with
        | none => simp [hl, hr] at h
        | some next =>
          simp only [hl, hr] at h
          have hnext : next_ring m start = some next := by simp [next_ring, hl, hr]
          obtain ⟨k, hk, hchain, houter, hinner⟩ := ih next r (by simpa using h)
          refine ⟨k + 1, Nat.succ_lt_succ hk, ?_, houter, ?_⟩
          · rw [chain_succ_front, hnext]; simpa using hchain
          · intro j hj rj hrj
            cases j with
            | zero =>
              simp only [chain, Option.some.injEq] at hrj
              subst hrj
              exact ho
            | succ j =>
              rw [chain_succ_front, hnext] at hrj
              exact hinner j (Nat.lt_of_succ_lt_succ hj) rj (by simpa using hrj)

/-! ### Failure of the walk of `find_outer` -/

theorem merge_ring_returned (nodeEq : NodeRef → NodeRef → Bool) (self other : ProtoRing)
    (r : ProtoRing × ProtoRing) (h : self.merge_ring nodeEq other = .returned r) :
    r = ({ self with m_nodes := self.m_nodes ++ other.m_nodes.tail }, other) := by
  unfold ProtoRing.merge_ring at h
  cases hl : self.last with
  | none => simp [hl] at h
  | some l =>
    cases hf : other.first with
    | none => simp [hl, hf] at h
    | some f =>
      cases hq : nodeEq l f with
      | false => simp [hl, hf, hq] at h
      | true =>
        simp only [hl, hf, hq, if_true, Outcome.returned.injEq] at h
        rw [← h, ProtoRing.foldl_add_location_end]

theorem combine_rings_end_loop_returned (nodeEq : NodeRef → NodeRef → Bool) (ring : ProtoRing)
    (location : Location) :
    ∀ (its : List ProtoRing) (pos : Nat) (r : Option (Nat × ProtoRing)) (its' : List ProtoRing),
      combine_rings_end_loop nodeEq ring location its pos = .returned (r, its') →
      (r = none ∧ its' = its ∧ ∀ x ∈ its, ∃ g, x.first = some g ∧ g.location ≠ location) ∨
      (∃ k m, its[k]? = some m ∧
        r = some (pos + k, { ring with m_nodes := ring.m_nodes ++ m.m_nodes.tail }) ∧
        its' = its.eraseIdx k ∧ ∃ g, m.first = some g ∧ g.location = location) := by
  intro its
  induction its with
  | nil =>
    intro pos r its' h
    simp only [combine_rings_end_loop, Outcome.returned.injEq, Prod.mk.injEq] at h
    exact Or.inl ⟨h.1.symm, h.2.symm, by simp⟩
  | cons it its ih =>
    intro pos r its' h
    simp only [combine_rings_end_loop] at h
    cases hf : it.first with
    | none => simp [hf] at h
    | some f =>
      simp only [hf] at h
      by_cases hloc : location = f.location
      · rw [if_pos hloc] at h
        cases hm : ring.merge_ring nodeEq it with
        | returned merged =>
          have hmerged := merge_ring_returned nodeEq ring it merged hm
          simp only [hm, Outcome.bind, Outcome.returned.injEq, Prod.mk.injEq] at h
          refine Or.inr ⟨0, it, by simp, ?_, ?_, f, hf, hloc.symm⟩
          · rw [← h.1, hmerged]; rfl
          · rw [← h.2]; rfl
        | exit s => simp [hm, Outcome.bind] at h
        | abort => simp [hm, Outcome.bind] at h
        | undefined => simp [hm, Outcome.bind] at h
      · rw [if_neg hloc] at h
        cases hrec : combine_rings_end_loop nodeEq ring location its (pos + 1) with
        | returned res =>
          simp only [hrec, Outcome.bind, Outcome.returned.injEq, Prod.mk.injEq] at h
          obtain ⟨h1, h2⟩ := h
          rcases ih (pos + 1) res.1 res.2 (by rw [hrec]) with
            ⟨hr, hits, hall⟩ | ⟨k, m, hk, hr, hits, hg⟩
          · refine Or.inl ⟨by rw [← h1, hr], by rw [← h2, hits], ?_⟩
            intro x hx
            rcases List.mem_cons.mp hx with rfl | hx
            · exact ⟨f, hf, fun h' => hloc h'.symm⟩
            · exact hall x hx
          · refine Or.inr ⟨k + 1, m, by simpa using hk, ?_, ?_, hg⟩
            · rw [← h1, hr]
              have : pos + 1 + k = pos + (k + 1) := by omega
              rw [this]
            · rw [← h2, hits]; rfl
        | exit s => simp [hrec, Outcome.bind] at h
        | abort => simp [hrec, Outcome.bind] at h
        | undefined => simp [hrec, Outcome.bind] at h

theorem combine_rings_start_loop_returned (nodeEq : NodeRef → NodeRef → Bool)
    (ring : ProtoRing) (location : Location) :
    ∀ (its : List ProtoRing) (pos : Nat) (r : Option (Nat × ProtoRing)) (its' : List ProtoRing),
      combine_rings_start_loop nodeEq ring location its pos = .returned (r, its') →
      (r = none ∧ its' = its ∧ ∀ x ∈ its, ∃ g, x.last = some g ∧ g.location ≠ location) ∨
      (∃ k m, its[k]? = some m ∧
        r = some (pos + k, { ring with m_nodes := m.m_nodes ++ ring.m_nodes.tail }) ∧
        its' = its.eraseIdx k ∧ ∃ g, m.last = some g ∧ g.location = location) := by
  intro its
  induction its with
  | nil =>
    intro pos r its' h
    simp only [combine_rings_start_loop, Outcome.returned.injEq, Prod.mk.injEq] at h
    exact Or.inl ⟨h.1.symm, h.2.symm, by simp⟩
  | cons it its ih =>
    intro pos r its' h
    simp only [combine_rings_start_loop] at h
    cases hb : it.last with
    | none => simp [hb] at h
    | some b =>
      simp only [hb] at h
      by_cases hloc : location = b.location
      · rw [if_pos hloc] at h
        cases hm : (ring.swap_nodes it).1.merge_ring nodeEq (ring.swap_nodes it).2 with
        | returned merged =>
          have hmerged := merge_ring_returned nodeEq _ _ merged hm
          simp only [hm, Outcome.bind, Outcome.returned.injEq, Prod.mk.injEq] at h
          refine Or.inr ⟨0, it, by simp, ?_, ?_, b, hb, hloc.symm⟩
          · rw [← h.1, hmerged]; rfl
          · rw [← h.2]; rfl
        | exit s => simp [hm, Outcome.bind] at h
        | abort => simp [hm, Outcome.bind] at h
        | undefined => simp [hm, Outcome.bind] at h
      · rw [if_neg hloc] at h
        cases hrec : combine_rings_start_loop nodeEq ring location its (pos + 1) with
        | returned res =>
          simp only [hrec, Outcome.bind, Outcome.returned.injEq, Prod.mk.injEq] at h
          obtain ⟨h1, h2⟩ := h
          rcases ih (pos + 1) res.1 res.2 (by rw [hrec]) with
            ⟨hr, hits, hall⟩ | ⟨k, m, hk, hr, hits, hg⟩
          · refine Or.inl ⟨by rw [← h1, hr], by rw [← h2, hits], ?_⟩
            intro x hx
            rcases List.mem_cons.mp hx with rfl | hx
            · exact ⟨b, hb, fun h' => hloc h'.symm⟩
            · exact hall x hx
          · refine Or.inr ⟨k + 1, m, by simpa using hk, ?_, ?_, hg⟩
            · rw [← h1, hr]
              have : pos + 1 + k = pos + (k + 1) := by omega
              rw [this]
            · rw [← h2, hits]; rfl
        | exit s => simp [hrec, Outcome.bind] at h
        | abort => simp [hrec, Outcome.bind] at h
        | undefined => simp [hrec, Outcome.bind] at h

theorem combine_rings_end_returned (nodeEq : NodeRef → NodeRef → Bool) (c : Rings)
    (p : Option Nat) (c' : Rings) (h : combine_rings_end nodeEq c = .returned (p, c')) :
    ∃ l, c.ring.last = some l ∧
      ((p = none ∧ c' = c ∧
          ∀ x ∈ c.before ++ c.after, ∃ g, x.first = some g ∧ g.location ≠ l.location) ∨
        (∃ k m, c.before[k]? = some m ∧ p = some k ∧
          c' = ⟨c.before.eraseIdx k, { c.ring with m_nodes := c.ring.m_nodes ++ m.m_nodes.tail }, c.after⟩) ∨
        (∃ k m, c.after[k]? = some m ∧ p = some (c.before.length + 1 + k) ∧
          c' = ⟨c.before, { c.ring with m_nodes := c.ring.m_nodes ++ m.m_nodes.tail }, c.after.eraseIdx k⟩)) := by
  unfold combine_rings_end at h
  cases hl : c.ring.last with
  | none => simp [hl] at h
  | some l =>
    refine ⟨l, rfl, ?_⟩
    simp only [hl] at h
    cases h1 : combine_rings_end_loop nodeEq c.ring l.location c.before 0 with
    | returned r1 =>
      simp only [h1, Outcome.bind] at h
      rcases combine_rings_end_loop_returned nodeEq c.ring l.location c.before 0 r1.1 r1.2
          (by rw [h1]) with ⟨hr, hits, hall⟩ | ⟨k, m, hk, hr, hits, _⟩
      · simp only [hr] at h
        cases h2 : combine_rings_end_loop nodeEq c.ring l.location c.after
            (c.before.length + 1) with
        | returned r2 =>
          simp only [h2, Outcome.bind] at h
          rcases combine_rings_end_loop_returned nodeEq c.ring l.location c.after
              (c.before.length + 1) r2.1 r2.2 (by rw [h2]) with
            ⟨hr2, _, hall2⟩ | ⟨k, m, hk, hr2, hits2, _⟩
          · simp only [hr2, Outcome.returned.injEq, Prod.mk.injEq] at h
            refine Or.inl ⟨h.1.symm, h.2.symm, ?_⟩
            intro x hx
            rcases List.mem_append.mp hx with hx | hx
            · exact hall x hx
            · exact hall2 x hx
          · simp only [hr2, Outcome.returned.injEq, Prod.mk.injEq] at h
            refine Or.inr (Or.inr ⟨k, m, hk, h.1.symm, ?_⟩)
            rw [← h.2, hits2]
        | exit s => simp [h2, Outcome.bind] at h
        | abort => simp [h2, Outcome.bind] at h
        | undefined => simp [h2, Outcome.bind] at h
      · simp only [hr, Outcome.returned.injEq, Prod.mk.injEq] at h
        refine Or.inr (Or.inl ⟨k, m, hk, ?_, ?_⟩)
        · rw [← h.1]; simp
        · rw [← h.2, hits]
    | exit s => simp [h1, Outcome.bind] at h
    | abort => simp [h1, Outcome.bind] at h
    | undefined => simp [h1, Outcome.bind] at h

theorem combine_rings_start_returned (nodeEq : NodeRef → NodeRef → Bool) (c : Rings)
    (p : Option Nat) (c' : Rings) (h : combine_rings_start nodeEq c = .returned (p, c')) :
    ∃ l, c.ring.first = some l ∧
      ((p = none ∧ c' = c ∧
          ∀ x ∈ c.before ++ c.after, ∃ g, x.last = some g ∧ g.location ≠ l.location) ∨
        (∃ k m, c.before[k]? = some m ∧ p = some k ∧
          c' = ⟨c.before.eraseIdx k, { c.ring with m_nodes := m.m_nodes ++ c.ring.m_nodes.tail }, c.after⟩) ∨
        (∃ k m, c.after[k]? = some m ∧ p = some (c.before.length + 1 + k) ∧
          c' = ⟨c.before, { c.ring with m_nodes := m.m_nodes ++ c.ring.m_nodes.tail }, c.after.eraseIdx k⟩)) := by
  unfold combine_rings_start at h
  cases hl : c.ring.first with
  | none => simp [hl] at h
  | some l =>
    refine ⟨l, rfl, ?_⟩
    simp only [hl] at h
    cases h1 : combine_rings_start_loop nodeEq c.ring l.location c.before 0 with
    | returned r1 =>
      simp only [h1, Outcome.bind] at h
      rcases combine_rings_start_loop_returned nodeEq c.ring l.location c.before 0 r1.1 r1.2
          (by rw [h1]) with ⟨hr, hits, hall⟩ | ⟨k, m, hk, hr, hits, _⟩
      · simp only [hr] at h
        cases h2 : combine_rings_start_loop nodeEq c.ring l.location c.after
            (c.before.length + 1) with
        | returned r2 =>
          simp only [h2, Outcome.bind] at h
          rcases combine_rings_start_loop_returned nodeEq c.ring l.location c.after
              (c.before.length + 1) r2.1 r2.2 (by rw [h2]) with
            ⟨hr2, _, hall2⟩ | ⟨k, m, hk, hr2, hits2, _⟩
          · simp only [hr2, Outcome.returned.injEq, Prod.mk.injEq] at h
            refine Or.inl ⟨h.1.symm, h.2.symm, ?_⟩
            intro x hx
            rcases List.mem_append.mp hx with hx | hx
            · exact hall x hx
            · exact hall2 x hx
          · simp only [hr2, Outcome.returned.injEq, Prod.mk.injEq] at h
            refine Or.inr (Or.inr ⟨k, m, hk, h.1.symm, ?_⟩)
            rw [← h.2, hits2]
        | exit s => simp [h2, Outcome.bind] at h
        | abort => simp [h2, Outcome.bind] at h
        | undefined => simp [h2, Outcome.bind] at h
      · simp only [hr, Outcome.returned.injEq, Prod.mk.injEq] at h
        refine Or.inr (Or.inl ⟨k, m, hk, ?_, ?_⟩)
        · rw [← h.1]; simp
        · rw [← h.2, hits]
    | exit s => simp [h1, Outcome.bind] at h
    | abort => simp [h1, Outcome.bind] at h
    | undefined => simp [h1, Outcome.bind] at h

theorem first_of_ne_nil (r : ProtoRing) (h : r.m_nodes ≠ []) : ∃ g, r.first = some g := by
  cases hn : r.m_nodes with
  | nil => exact absurd hn h
  | cons a t => exact ⟨a, by simp [ProtoRing.first, hn]⟩

theorem last_of_ne_nil (r : ProtoRing) (h : r.m_nodes ≠ []) : ∃ g, r.last = some g := by
  refine ⟨r.m_nodes.getLast h, ?_⟩
  simp [ProtoRing.last, List.getLast?_eq_getLast _ h]

/-- Without a match `combine_rings_end` returns `nullptr` and changes nothing. -/
theorem combine_rings_end_of_no_match (nodeEq : NodeRef → NodeRef → Bool) (c : Rings)
    (l : NodeRef) (hl : c.ring.last = some l)
    (h : ∀ x ∈ c.before ++ c.after, ∃ g, x.first = some g ∧ g.location ≠ l.location) :
    combine_rings_end nodeEq c = .returned (none, c) := by
  have hb := combine_rings_end_loop_none nodeEq c.ring l.location c.before 0
    (fun x hx => h x (List.mem_append_left _ hx))
  have ha := combine_rings_end_loop_none nodeEq c.ring l.location c.after (c.before.length + 1)
    (fun x hx => h x (List.mem_append_right _ hx))
  simp [combine_rings_end, hl, hb, ha, Outcome.bind]

/-- Without a match `combine_rings_start` returns `nullptr` and changes nothing. -/
theorem combine_rings_start_of_no_match (nodeEq : NodeRef → NodeRef → Bool) (c : Rings)
    (f : NodeRef) (hf : c.ring.first = some f)
    (h : ∀ x ∈ c.before ++ c.after, ∃ g, x.last = some g ∧ g.location ≠ f.location) :
    combine_rings_start nodeEq c = .returned (none, c) := by
  have hb := combine_rings_start_loop_none nodeEq c.ring f.location c.before 0
    (fun x hx => h x (List.mem_append_left _ hx))
  have ha := combine_rings_start_loop_none nodeEq c.ring f.location c.after
    (c.before.length + 1) (fun x hx => h x (List.mem_append_right _ hx))
  simp [combine_rings_start, hf, hb, ha, Outcome.bind]

/-- At the first ring that matches by location, `combine_rings_end` does what `merge_ring`
does there: the result is the outcome of the merge, followed, when the merge returns, by the
removal of the matched ring. -/
theorem combine_rings_end_at_first_match (nodeEq : NodeRef → NodeRef → Bool) (c : Rings)
    (l f : NodeRef) (pre post : List ProtoRing) (m : ProtoRing)
    (hl : c.ring.last = some l)
    (hsplit : c.before ++ c.after = pre ++ m :: post)
    (hpre : ∀ x ∈ pre, ∃ g, x.first = some g ∧ g.location ≠ l.location)
    (hf : m.first = some f) (hloc : f.location = l.location) :
    ∃ (pos : Nat) (before' after' : List ProtoRing),
      before' ++ after' = pre ++ post ∧
      pos = (if pre.length < c.before.length then pre.length else pre.length + 1) ∧
      c.toList[pos]? = some m ∧
      combine_rings_end nodeEq c =
        (c.ring.merge_ring nodeEq m).bind fun merged =>
          .returned (some pos, ⟨before', merged.1, after'⟩) := by
  rcases split_cases c.before c.after pre post m hsplit with ⟨rest, hb, hp⟩ | ⟨mid, hp, ha⟩
  · refine ⟨pre.length, pre ++ rest, c.after, by simp [hp], by simp [hb], ?_, ?_⟩
    · have := getElem?_append_cons_length pre (rest ++ c.ring :: c.after) m
      simpa [Rings.toList, hb] using this
    · simp only [combine_rings_end, hl, hb]
      rw [combine_rings_end_loop_found nodeEq c.ring l.location pre rest m f 0 hpre hf hloc]
      cases c.ring.merge_ring nodeEq m <;> simp [Outcome.bind]
  · have hbefore : ∀ x ∈ c.before, ∃ g, x.first = some g ∧ g.location ≠ l.location :=
      fun x hx => hpre x (by rw [hp]; exact List.mem_append_left _ hx)
    have hmid : ∀ x ∈ mid, ∃ g, x.first = some g ∧ g.location ≠ l.location :=
      fun x hx => hpre x (by rw [hp]; exact List.mem_append_right _ hx)
    refine ⟨pre.length + 1, c.before, mid ++ post, by simp [hp], by simp [hp], ?_, ?_⟩
    · have := getElem?_append_cons_length (c.before ++ c.ring :: mid) post m
      have hidx : (c.before ++ c.ring :: mid).length = pre.length + 1 := by
        simp [hp]; omega
      rw [hidx] at this
      simpa [Rings.toList, ha] using this
    · simp only [combine_rings_end, hl]
      rw [combine_rings_end_loop_none nodeEq c.ring l.location c.before 0 hbefore]
      simp only [Outcome.bind]
      rw [ha, combine_rings_end_loop_found nodeEq c.ring l.location mid post m f
        (c.before.length + 1) hmid hf hloc]
      have hpos : c.before.length + 1 + mid.length = pre.length + 1 := by
        simp [hp]; omega
      rw [hpos]
      cases c.ring.merge_ring nodeEq m <;> simp [Outcome.bind]

/-- At the first ring that matches by location, `combine_rings_start` does what `merge_ring`
does there: the result is the outcome of the merge, followed, when the merge returns, by the
removal of the matched ring. -/
theorem combine_rings_start_at_first_match (nodeEq : NodeRef → NodeRef → Bool) (c : Rings)
    (l f : NodeRef) (pre post : List ProtoRing) (m : ProtoRing)
    (hl : c.ring.first = some l)
    (hsplit : c.before ++ c.after = pre ++ m :: post)
    (hpre : ∀ x ∈ pre, ∃ g, x.last = some g ∧ g.location ≠ l.location)
    (hf : m.last = some f) (hloc : f.location = l.location) :
    ∃ (pos : Nat) (before' after' : List ProtoRing),
      before' ++ after' = pre ++ post ∧
      pos = (if pre.length < c.before.length then pre.length else pre.length + 1) ∧
      c.toList[pos]? = some m ∧
      combine_rings_start nodeEq c =
        ((c.ring.swap_nodes m).1.merge_ring nodeEq (c.ring.swap_nodes m).2).bind fun merged =>
          .returned (some pos, ⟨before', merged.1, after'⟩) := by
  rcases split_cases c.before c.after pre post m hsplit with ⟨rest, hb, hp⟩ | ⟨mid, hp, ha⟩
  · refine ⟨pre.length, pre ++ rest, c.after, by simp [hp], by simp [hb], ?_, ?_⟩
    · have := getElem?_append_cons_length pre (rest ++ c.ring :: c.after) m
      simpa [Rings.toList, hb] using this
    · simp only [combine_rings_start, hl, hb]
      rw [combine_rings_start_loop_found nodeEq c.ring l.location pre rest m f 0 hpre hf hloc]
      cases (c.ring.swap_nodes m).1.merge_ring nodeEq (c.ring.swap_nodes m).2 <;> simp [Outcome.bind]
  · have hbefore : ∀ x ∈ c.before, ∃ g, x.last = some g ∧ g.location ≠ l.location :=
      fun x hx => hpre x (by rw [hp]; exact List.mem_append_left _ hx)
    have hmid : ∀ x ∈ mid, ∃ g, x.last = some g ∧ g.location ≠ l.location :=
      fun x hx => hpre x (by rw [hp]; exact List.mem_append_right _ hx)
    refine ⟨pre.length + 1, c.before, mid ++ post, by simp [hp], by simp [hp], ?_, ?_⟩
    · have := getElem?_append_cons_length (c.before ++ c.ring :: mid) post m
      have hidx : (c.before ++ c.ring :: mid).length = pre.length + 1 := by
        simp [hp]; omega
      rw [hidx] at this
      simpa [Rings.toList, ha] using this
    · simp only [combine_rings_start, hl]
      rw [combine_rings_start_loop_none nodeEq c.ring l.location c.before 0 hbefore]
      simp only [Outcome.bind]
      rw [ha, combine_rings_start_loop_found nodeEq c.ring l.location mid post m f
        (c.before.length + 1) hmid hf hloc]
      have hpos : c.before.length + 1 + mid.length = pre.length + 1 := by
        simp [hp]; omega
      rw [hpos]
      cases (c.ring.swap_nodes m).1.merge_ring nodeEq (c.ring.swap_nodes m).2 <;> simp [Outcome.bind]

/-! ### The frame of a successful combine -/

theorem frame_kept_before (c : Rings) (k : Nat) (m ring' : ProtoRing)
    (hk : c.before[k]? = some m) (hs : ring'.m_first_segment = c.ring.m_first_segment)
    (hi : ring'.m_inner = c.ring.m_inner) :
    frame_kept c k ⟨c.before.eraseIdx k, ring', c.after⟩ := by
  have hlt : k < c.before.length := (List.getElem?_eq_some_iff.mp hk).1
  refine ⟨hs, hi, Or.inl ⟨hlt, rfl, rfl⟩, ?_, ?_⟩
  · simp only [Rings.toList]
    rw [List.set_append_right _ _ (Nat.le_refl _), Nat.sub_self, List.set_cons_zero,
      List.eraseIdx_append_of_lt_length hlt]
  · simp only [Rings.toList, List.length_append, List.length_cons, List.length_eraseIdx, hlt,
      if_true]
    omega

theorem frame_kept_after (c : Rings) (k : Nat) (m ring' : ProtoRing)
    (hk : c.after[k]? = some m) (hs : ring'.m_first_segment = c.ring.m_first_segment)
    (hi : ring'.m_inner = c.ring.m_inner) :
    frame_kept c (c.before.length + 1 + k) ⟨c.before, ring', c.after.eraseIdx k⟩ := by
  have hlt : k < c.after.length := (List.getElem?_eq_some_iff.mp hk).1
  have hsub : c.before.length + 1 + k - (c.before.length + 1) = k := by omega
  refine ⟨hs, hi, Or.inr ⟨by omega, ?_, rfl, by rw [hsub]⟩, ?_, ?_⟩
  · simp only [Rings.toList, List.length_append, List.length_cons]
    omega
  · simp only [Rings.toList]
    rw [List.set_append_right _ _ (Nat.le_refl _), Nat.sub_self, List.set_cons_zero,
      List.eraseIdx_append_of_length_le (by omega)]
    have h2 : c.before.length + 1 + k - c.before.length = k + 1 := by omega
    rw [h2, List.eraseIdx_cons_succ]
  · simp only [Rings.toList, List.length_append, List.length_cons, List.length_eraseIdx, hlt,
      if_true]
    omega

/-! ### Length of the rings of a collection -/

theorem two_le_of_combine (c c' : Rings) (merged : List NodeRef) (before' after' : List ProtoRing)
    (hall : ∀ x ∈ c.toList, 2 ≤ x.m_nodes.length) (hm : 2 ≤ merged.length)
    (hb : ∀ x ∈ before', x ∈ c.before) (ha : ∀ x ∈ after', x ∈ c.after)
    (hc : c' = ⟨before', { c.ring with m_nodes := merged }, after'⟩) :
    ∀ x ∈ c'.toList, 2 ≤ x.m_nodes.length := by
  intro x hx
  rw [hc] at hx
  simp only [Rings.toList, List.mem_append, List.mem_cons] at hx
  rcases hx with hx | rfl | hx
  · exact hall x (by simp [Rings.toList, hb x hx])
  · exact hm
  · exact hall x (by simp [Rings.toList, ha x hx])

/-! ### The products of `is_outer` -/

/-- A product of two 32 bit coordinates fits an `int64_t`: the multiplications of `is_outer`
do not overflow. -/
theorem product_in_range (a b : Location) (ha : a.inRange) (hb : b.inRange) :
    -2 ^ 63 ≤ a.x * b.y ∧ a.x * b.y < 2 ^ 63 ∧
      ProtoRing.wrap64 (a.x * b.y) = a.x * b.y := by
  obtain ⟨h1, h2, _, _⟩ := ha
  obtain ⟨_, _, h3, h4⟩ := hb
  have hlo : -2 ^ 63 ≤ a.x * b.y := by
    nlinarith [mul_nonneg (sub_nonneg.mpr h1) (sub_nonneg.mpr h4),
      mul_nonneg (sub_nonneg.mpr h2) (sub_nonneg.mpr h3)]
  have hhi : a.x * b.y < 2 ^ 63 := by
    nlinarith [mul_nonneg (sub_nonneg.mpr h1) (sub_nonneg.mpr h3),
      mul_nonneg (sub_nonneg.mpr h2) (sub_nonneg.mpr h4)]
  exact ⟨hlo, hhi, ProtoRing.wrap64_of_range _ hlo hhi⟩

/-! ### Stitching a chain with `combine_rings_end` -/

theorem exists_first_split {α : Type} (P : α → Prop) (l : List α) (h : ∃ x ∈ l, P x) :
    ∃ pre m post, l = pre ++ m :: post ∧ P m ∧ ∀ x ∈ pre, ¬ P x := by
  induction l with
  | nil => simp at h
  | cons a t ih =>
    by_cases ha : P a
    · exact ⟨[], a, t, rfl, ha, by simp⟩
    · obtain ⟨x, hx, hpx⟩ := h
      rcases List.mem_cons.mp hx with rfl | hx
      · exact absurd hpx ha
      · obtain ⟨pre, m, post, hl, hm, hpre⟩ := ih ⟨x, hx, hpx⟩
        refine ⟨a :: pre, m, post, by simp [hl], hm, ?_⟩
        intro y hy
        rcases List.mem_cons.mp hy with rfl | hy
        · exact ha
        · exact hpre y hy

theorem chain_nodes_mem (l : List NodeRef) (s : List NodeRef) (h : s ∈ chain_nodes l) :
    ∃ a b, s = [a, b] ∧ a ∈ l.dropLast := by
  induction l with
  | nil => simp [chain_nodes] at h
  | cons a t ih =>
    cases t with
    | nil => simp [chain_nodes] at h
    | cons b u =>
      simp only [chain_nodes, List.mem_cons] at h
      rcases h with rfl | h
      · exact ⟨a, b, rfl, by simp⟩
      · obtain ⟨a', b', hs, ha'⟩ := ih h
        exact ⟨a', b', hs, by simp [ha']⟩

theorem combine_rings_end_times_chain (nodeEq : NodeRef → NodeRef → Bool)
    (hrefl : ∀ a, nodeEq a a = true) :
    ∀ (qs : List NodeRef) (q0 : NodeRef) (c : Rings),
      c.ring.last = some q0 →
      ((c.before ++ c.after).map (fun r => r.m_nodes)).Perm (chain_nodes (q0 :: qs)) →
      (((q0 :: qs).dropLast).map (fun nr => nr.location)).Nodup →
      ∃ ptrs, combine_rings_end_times nodeEq qs.length c =
          .returned (ptrs, ⟨[], { c.ring with m_nodes := c.ring.m_nodes ++ qs }, []⟩) ∧
        ptrs.length = qs.length ∧ ∀ p ∈ ptrs, p ≠ none := by
  intro qs
  induction qs with
  | nil =>
    intro q0 c _ hperm _
    have hnil : c.before ++ c.after = [] := by
      simpa [chain_nodes] using hperm
    obtain ⟨hb, ha⟩ := List.append_eq_nil.mp hnil
    refine ⟨[], ?_, rfl, by simp⟩
    obtain ⟨before, ring, after⟩ := c
    simp only at hb ha
    subst hb
    subst ha
    simp [combine_rings_end_times]
  | cons q1 qs ih =>
    intro q0 c hl hperm hnodup
    have hshape : ∀ x ∈ c.before ++ c.after, ∃ a b, x.m_nodes = [a, b] ∧
        a ∈ (q0 :: q1 :: qs).dropLast := by
      intro x hx
      have hmem : x.m_nodes ∈ chain_nodes (q0 :: q1 :: qs) :=
        hperm.mem_iff.mp (List.mem_map_of_mem _ hx)
      exact chain_nodes_mem _ _ hmem
    have hex : ∃ x ∈ c.before ++ c.after,
        ∃ g, x.first = some g ∧ g.location = q0.location := by
      have hmem : [q0, q1] ∈ (c.before ++ c.after).map (fun r => r.m_nodes) :=
        hperm.mem_iff.mpr (by simp [chain_nodes])
      obtain ⟨x, hx, hxn⟩ := List.mem_map.mp hmem
      exact ⟨x, hx, q0, by simp only [ProtoRing.first]; rw [hxn]; rfl, rfl⟩
    obtain ⟨pre, m, post, hsplit, ⟨f, hf, hloc⟩, hpre⟩ := exists_first_split _ _ hex
    have hnodup' : q0.location ∉ ((q1 :: qs).dropLast).map (fun nr => nr.location) ∧
        (((q1 :: qs).dropLast).map (fun nr => nr.location)).Nodup := by
      have : (q0 :: q1 :: qs).dropLast = q0 :: (q1 :: qs).dropLast := by simp
      rw [this, List.map_cons, List.nodup_cons] at hnodup
      exact hnodup
    have hm_mem : m ∈ c.before ++ c.after := by rw [hsplit]; simp
    have hm_nodes : m.m_nodes = [q0, q1] := by
      have hmem : m.m_nodes ∈ chain_nodes (q0 :: q1 :: qs) :=
        hperm.mem_iff.mp (List.mem_map_of_mem _ hm_mem)
      simp only [chain_nodes, List.mem_cons] at hmem
      rcases hmem with h | h
      · exact h
      · exfalso
        obtain ⟨a, b, hab, ha⟩ := chain_nodes_mem _ _ h
        have hfa : f = a := by
          simp only [ProtoRing.first] at hf
          rw [hab] at hf
          simpa using hf.symm
        apply hnodup'.1
        rw [← hloc, hfa]
        exact List.mem_map_of_mem _ ha
    have hfq : f = q0 := by
      simp only [ProtoRing.first] at hf
      rw [hm_nodes] at hf
      simpa using hf.symm
    subst hfq
    have hpre' : ∀ x ∈ pre, ∃ g, x.first = some g ∧ g.location ≠ f.location := by
      intro x hx
      obtain ⟨a, b, hab, _⟩ := hshape x (by rw [hsplit]; simp [hx])
      have hxf : x.first = some a := by simp only [ProtoRing.first]; rw [hab]; rfl
      exact ⟨a, hxf, fun h => hpre x hx ⟨a, hxf, h⟩⟩
    obtain ⟨pos, before', after', hba, _, _, hcall⟩ :=
      combine_rings_end_at_first_match nodeEq c f f pre post m hl hsplit hpre' hf rfl
    rw [ProtoRing.merge_ring_of_eq nodeEq c.ring m f f hl hf (hrefl f)] at hcall
    simp only [Outcome.bind, hm_nodes, List.tail_cons] at hcall
    have hperm' : ((before' ++ after').map (fun r => r.m_nodes)).Perm
        (chain_nodes (q1 :: qs)) := by
      rw [hba]
      rw [hsplit, List.map_append, List.map_cons, hm_nodes] at hperm
      have h2 := (List.perm_middle.symm.trans hperm)
      simp only [chain_nodes] at h2
      rw [List.map_append]
      exact h2.cons_inv
    obtain ⟨ptrs, hrest, hlen, hsome⟩ :=
      ih q1 ⟨before', { c.ring with m_nodes := c.ring.m_nodes ++ [q1] }, after'⟩
        (by simp [ProtoRing.last]) hperm' hnodup'.2
    refine ⟨some pos :: ptrs, ?_, by simp [hlen], ?_⟩
    · simp only [List.length_cons, combine_rings_end_times, hcall, Outcome.bind, hrest]
      simp
    · intro p hp
      rcases List.mem_cons.mp hp with rfl | hp
      · simp
      · exact hsome p hp

/-! ### The stitcher on three rings -/

theorem perm_pair_cases {α : Type} (l : List α) (x y : α) (h : l.Perm [x, y]) :
    l = [x, y] ∨ l = [y, x] := by
  have hlen := h.length_eq
  match l, h, hlen with
  | [u, v], h, _ =>
    have hu : u ∈ [x, y] := h.mem_iff.mp (by simp)
    simp only [List.mem_cons, List.mem_singleton, List.not_mem_nil, or_false] at hu
    rcases hu with rfl | rfl
    · have hv : [v].Perm [y] := (List.perm_cons u).mp h
      exact Or.inl (by rw [List.perm_singleton.mp hv])
    · have hv : [v].Perm [x] := (List.perm_cons u).mp (h.trans (List.Perm.swap u x []))
      exact Or.inr (by rw [List.perm_singleton.mp hv])

/-- The stitcher on the working ring `[X, Y]` next to the rings `[Y, Z]` and `[Z, X]`, which
may stand in either order and on either side of it: `combine_rings_end` appends `[Y, Z]`,
`combine_rings_start` puts `[Z, X]` in front, and the ring `[Z, X, Y, Z]` is left alone. -/
theorem stitch_three (nodeEq : NodeRef → NodeRef → Bool) (hrefl : ∀ a, nodeEq a a = true)
    (X Y Z : NodeRef) (hXY : X.location ≠ Y.location) (hYZ : Y.location ≠ Z.location)
    (hXZ : X.location ≠ Z.location) (ring m1 m2 : ProtoRing)
    (hr : ring.m_nodes = [X, Y]) (h1 : m1.m_nodes = [Y, Z]) (h2 : m2.m_nodes = [Z, X])
    (before after : List ProtoRing)
    (hba : before ++ after = [m1, m2] ∨ before ++ after = [m2, m1]) (fuel : Nat) :
    stitch nodeEq (fuel + 2) ⟨before, ring, after⟩ =
      some (.returned ⟨[], { ring with m_nodes := [Z, X, Y, Z] }, []⟩) := by
  obtain ⟨rn, rs, ri⟩ := ring
  obtain ⟨n1, s1, i1⟩ := m1
  obtain ⟨n2, s2, i2⟩ := m2
  simp only at hr h1 h2
  subst hr
  subst h1
  subst h2
  have hcases : (before = [] ∧ after = [⟨[Y, Z], s1, i1⟩, ⟨[Z, X], s2, i2⟩]) ∨
      (before = [⟨[Y, Z], s1, i1⟩] ∧ after = [⟨[Z, X], s2, i2⟩]) ∨
      (before = [⟨[Y, Z], s1, i1⟩, ⟨[Z, X], s2, i2⟩] ∧ after = []) ∨
      (before = [] ∧ after = [⟨[Z, X], s2, i2⟩, ⟨[Y, Z], s1, i1⟩]) ∨
      (before = [⟨[Z, X], s2, i2⟩] ∧ after = [⟨[Y, Z], s1, i1⟩]) ∨
      (before = [⟨[Z, X], s2, i2⟩, ⟨[Y, Z], s1, i1⟩] ∧ after = []) := by
    rcases hba with h | h
    · match before, h with
      | [], h => exact Or.inl ⟨rfl, h⟩
      | [a], h =>
        simp only [List.singleton_append, List.cons.injEq] at h
        exact Or.inr (Or.inl ⟨by rw [h.1], h.2⟩)
      | [a, b], h =>
        simp only [List.cons_append, List.nil_append, List.cons.injEq] at h
        exact Or.inr (Or.inr (Or.inl ⟨by rw [h.1, h.2.1], h.2.2⟩))
      | a :: b :: d :: t, h => simp at h
    · match before, h with
      | [], h => exact Or.inr (Or.inr (Or.inr (Or.inl ⟨rfl, h⟩)))
      | [a], h =>
        simp only [List.singleton_append, List.cons.injEq] at h
        exact Or.inr (Or.inr (Or.inr (Or.inr (Or.inl ⟨by rw [h.1], h.2⟩))))
      | [a, b], h =>
        simp only [List.cons_append, List.nil_append, List.cons.injEq] at h
        exact Or.inr (Or.inr (Or.inr (Or.inr (Or.inr ⟨by rw [h.1, h.2.1], h.2.2⟩))))
      | a :: b :: d :: t, h => simp at h
  rcases hcases with ⟨hb, ha⟩ | ⟨hb, ha⟩ | ⟨hb, ha⟩ | ⟨hb, ha⟩ | ⟨hb, ha⟩ | ⟨hb, ha⟩ <;>
    subst hb <;> subst ha <;>
    simp [stitch, ProtoRing.closed, combine_rings_end, combine_rings_end_loop,
      combine_rings_start, combine_rings_start_loop, ProtoRing.merge_ring,
      ProtoRing.swap_nodes, ProtoRing.first, ProtoRing.last, Outcome.bind, hrefl, hXY, hYZ,
      hXZ, Ne.symm hXY, Ne.symm hYZ, Ne.symm hXZ, ProtoRing.add_location_end]

/-! ### A location match between distinct nodes -/

/-- At the first ring that matches by location, `combine_rings_end` and `combine_rings_start`
end the process with `exit(3)` when `operator==` tells the two nodes apart: the scan has
compared the locations, `merge_ring` compares the nodes. -/
theorem combine_rings_exit_of_ne (nodeEq : NodeRef → NodeRef → Bool) :
    (∀ (c : Rings) (l f : NodeRef) (pre post : List ProtoRing) (m : ProtoRing),
      c.ring.last = some l → c.before ++ c.after = pre ++ m :: post →
      (∀ x ∈ pre, ∃ g, x.first = some g ∧ g.location ≠ l.location) →
      m.first = some f → f.location = l.location → nodeEq l f = false →
      combine_rings_end nodeEq c = .exit 3) ∧
    (∀ (c : Rings) (f b : NodeRef) (pre post : List ProtoRing) (m : ProtoRing),
      c.ring.first = some f → c.before ++ c.after = pre ++ m :: post →
      (∀ x ∈ pre, ∃ g, x.last = some g ∧ g.location ≠ f.location) →
      m.last = some b → b.location = f.location → nodeEq b f = false →
      combine_rings_start nodeEq c = .exit 3) := by
  constructor
  · intro c l f pre post m hl hsplit hpre hf hloc hne
    obtain ⟨_, _, _, _, _, _, hcall⟩ :=
      combine_rings_end_at_first_match nodeEq c l f pre post m hl hsplit hpre hf hloc
    rw [ProtoRing.merge_ring_of_ne nodeEq c.ring m l f hl hf hne] at hcall
    exact hcall
  · intro c f b pre post m hfst hsplit hpre hb hloc hne
    obtain ⟨_, _, _, _, _, _, hcall⟩ :=
      combine_rings_start_at_first_match nodeEq c f b pre post m hfst hsplit hpre hb hloc
    rw [ProtoRing.merge_ring_of_ne nodeEq (c.ring.swap_nodes m).1 (c.ring.swap_nodes m).2
      b f hb hfst hne] at hcall
    exact hcall

/-! ## Theorems -/

/-- C1 (amended). `combine_rings_end` picks the first other ring, in iteration order, whose
first node lies at the location of the last node of `ring` (`pre` are the other rings in front
of it, none of which has its first node there). When moreover that first node `==` the last
node of `ring`, the call returns the position of the picked ring `m`, the nodes of `ring`
become its old nodes followed by the nodes of `m` without the first one, `m` is removed from
the collection and nothing else is, so the size drops by exactly one. -/
theorem combine_rings_end_first_location_match (nodeEq : NodeRef → NodeRef → Bool) (c : Rings)
    (l f : NodeRef) (pre post : List ProtoRing) (m : ProtoRing)
    (hl : c.ring.last = some l)
    (hsplit : c.before ++ c.after = pre ++ m :: post)
    (hpre : ∀ x ∈ pre, ∃ g, x.first = some g ∧ g.location ≠ l.location)
    (hf : m.first = some f) (hloc : f.location = l.location)
    (heq : nodeEq l f = true) :
    ∃ (pos : Nat) (c' : Rings),
      combine_rings_end nodeEq c = .returned (some pos, c') ∧
      pos = (if pre.length < c.before.length then pre.length else pre.length + 1) ∧
      c.toList[pos]? = some m ∧
      c'.ring = { c.ring with m_nodes := c.ring.m_nodes ++ m.m_nodes.drop 1 } ∧
      c'.before ++ c'.after = pre ++ post ∧
      c'.toList.length + 1 = c.toList.length := by
  have hmerge := ProtoRing.merge_ring_of_eq nodeEq c.ring m l f hl hf heq
  rcases split_cases c.before c.after pre post m hsplit with ⟨rest, hb, hp⟩ | ⟨mid, hp, ha⟩
  · refine ⟨pre.length, ⟨pre ++ rest, { c.ring with m_nodes := c.ring.m_nodes ++ m.m_nodes.tail },
      c.after⟩, ?_, ?_, ?_, ?_, ?_, ?_⟩
    · simp only [combine_rings_end, hl, hb]
      rw [combine_rings_end_loop_found nodeEq c.ring l.location pre rest m f 0 hpre hf hloc,
        hmerge]
      simp [Outcome.bind]
    · simp [hb]
    · have := getElem?_append_cons_length pre (rest ++ c.ring :: c.after) m
      simpa [Rings.toList, hb] using this
    · simp
    · simp [hp]
    · simp [Rings.toList, hb]
      omega
  · have hbefore : ∀ x ∈ c.before, ∃ g, x.first = some g ∧ g.location ≠ l.location :=
      fun x hx => hpre x (by rw [hp]; exact List.mem_append_left _ hx)
    have hmid : ∀ x ∈ mid, ∃ g, x.first = some g ∧ g.location ≠ l.location :=
      fun x hx => hpre x (by rw [hp]; exact List.mem_append_right _ hx)
    refine ⟨pre.length + 1, ⟨c.before,
      { c.ring with m_nodes := c.ring.m_nodes ++ m.m_nodes.tail }, mid ++ post⟩,
      ?_, ?_, ?_, ?_, ?_, ?_⟩
    · simp only [combine_rings_end, hl]
      rw [combine_rings_end_loop_none nodeEq c.ring l.location c.before 0 hbefore]
      simp only [Outcome.bind]
      rw [ha, combine_rings_end_loop_found nodeEq c.ring l.location mid post m f
        (c.before.length + 1) hmid hf hloc, hmerge]
      simp [Outcome.bind, hp]
      omega
    · simp [hp]
    · have := getElem?_append_cons_length (c.before ++ c.ring :: mid) post m
      have hidx : (c.before ++ c.ring :: mid).length = pre.length + 1 := by
        simp [hp]; omega
      rw [hidx] at this
      simpa [Rings.toList, ha] using this
    · simp
    · simp [hp]
    · simp [Rings.toList, ha]
      omega

/-- Witness for C1 (amended): the collection `[x, ring, y, m]` with `ring = [1, 2]`,
`m = [2, 3]` (nodes written by id) and two rings `x`, `y` elsewhere. -/
theorem combine_rings_end_first_location_match_witness :
    ∃ (pos : Nat) (c' : Rings),
      combine_rings_end same_ref
          ⟨[⟨[⟨5, ⟨7, 7⟩⟩, ⟨6, ⟨8, 8⟩⟩], 10, []⟩], ⟨[⟨1, ⟨0, 0⟩⟩, ⟨2, ⟨0, 1⟩⟩], 11, []⟩,
            [⟨[⟨6, ⟨8, 8⟩⟩, ⟨5, ⟨7, 7⟩⟩], 12, []⟩, ⟨[⟨2, ⟨0, 1⟩⟩, ⟨3, ⟨1, 1⟩⟩], 13, []⟩]⟩ =
        .returned (some pos, c') ∧
      pos = 3 ∧
      c'.ring = ⟨[⟨1, ⟨0, 0⟩⟩, ⟨2, ⟨0, 1⟩⟩, ⟨3, ⟨1, 1⟩⟩], 11, []⟩ ∧
      c'.before ++ c'.after =
        [⟨[⟨5, ⟨7, 7⟩⟩, ⟨6, ⟨8, 8⟩⟩], 10, []⟩, ⟨[⟨6, ⟨8, 8⟩⟩, ⟨5, ⟨7, 7⟩⟩], 12, []⟩] := by
  obtain ⟨pos, c', h1, h2, _, h4, h5, _⟩ := combine_rings_end_first_location_match same_ref
    ⟨[⟨[⟨5, ⟨7, 7⟩⟩, ⟨6, ⟨8, 8⟩⟩], 10, []⟩], ⟨[⟨1, ⟨0, 0⟩⟩, ⟨2, ⟨0, 1⟩⟩], 11, []⟩,
      [⟨[⟨6, ⟨8, 8⟩⟩, ⟨5, ⟨7, 7⟩⟩], 12, []⟩, ⟨[⟨2, ⟨0, 1⟩⟩, ⟨3, ⟨1, 1⟩⟩], 13, []⟩]⟩
    ⟨2, ⟨0, 1⟩⟩ ⟨2, ⟨0, 1⟩⟩
    [⟨[⟨5, ⟨7, 7⟩⟩, ⟨6, ⟨8, 8⟩⟩], 10, []⟩, ⟨[⟨6, ⟨8, 8⟩⟩, ⟨5, ⟨7, 7⟩⟩], 12, []⟩] []
    ⟨[⟨2, ⟨0, 1⟩⟩, ⟨3, ⟨1, 1⟩⟩], 13, []⟩ rfl rfl (by decide) rfl rfl rfl
  exact ⟨pos, c', h1, by simpa using h2, by simpa using h4, h5⟩

/-- Counterexample to C1 as stated. In the collection `[ring, m', m]` with `ring = [1, 2]`,
`m' = [9, 8]` and `m = [2, 3]`, node 9 lies at the location of node 2: `m` is the first other
ring whose first node is the same node as the last node of `ring`, but whatever `operator==`
on `NodeRef` is, the call does not return `m` (position 2). With equality by id it ends the
process at `m'`, with equality by location it merges and returns `m'` (position 1). -/
theorem combine_rings_end_same_node_counterexample :
    (ProtoRing.first ⟨[⟨2, ⟨0, 1⟩⟩, ⟨3, ⟨1, 1⟩⟩], 13, []⟩ =
        ProtoRing.last ⟨[⟨1, ⟨0, 0⟩⟩, ⟨2, ⟨0, 1⟩⟩], 11, []⟩ ∧
      ProtoRing.first ⟨[⟨9, ⟨0, 1⟩⟩, ⟨8, ⟨5, 5⟩⟩], 12, []⟩ ≠
        ProtoRing.last ⟨[⟨1, ⟨0, 0⟩⟩, ⟨2, ⟨0, 1⟩⟩], 11, []⟩) ∧
    (¬ ∃ (nodeEq : NodeRef → NodeRef → Bool) (c' : Rings),
      combine_rings_end nodeEq
          ⟨[], ⟨[⟨1, ⟨0, 0⟩⟩, ⟨2, ⟨0, 1⟩⟩], 11, []⟩,
            [⟨[⟨9, ⟨0, 1⟩⟩, ⟨8, ⟨5, 5⟩⟩], 12, []⟩, ⟨[⟨2, ⟨0, 1⟩⟩, ⟨3, ⟨1, 1⟩⟩], 13, []⟩]⟩ =
        .returned (some 2, c')) ∧
    combine_rings_end same_ref
        ⟨[], ⟨[⟨1, ⟨0, 0⟩⟩, ⟨2, ⟨0, 1⟩⟩], 11, []⟩,
          [⟨[⟨9, ⟨0, 1⟩⟩, ⟨8, ⟨5, 5⟩⟩], 12, []⟩, ⟨[⟨2, ⟨0, 1⟩⟩, ⟨3, ⟨1, 1⟩⟩], 13, []⟩]⟩ =
      .exit 3 ∧
    combine_rings_end same_location
        ⟨[], ⟨[⟨1, ⟨0, 0⟩⟩, ⟨2, ⟨0, 1⟩⟩], 11, []⟩,
          [⟨[⟨9, ⟨0, 1⟩⟩, ⟨8, ⟨5, 5⟩⟩], 12, []⟩, ⟨[⟨2, ⟨0, 1⟩⟩, ⟨3, ⟨1, 1⟩⟩], 13, []⟩]⟩ =
      .returned (some 1, ⟨[], ⟨[⟨1, ⟨0, 0⟩⟩, ⟨2, ⟨0, 1⟩⟩, ⟨8, ⟨5, 5⟩⟩], 11, []⟩,
        [⟨[⟨2, ⟨0, 1⟩⟩, ⟨3, ⟨1, 1⟩⟩], 13, []⟩]⟩) := by
  refine ⟨⟨by decide, by decide⟩, ?_, by decide, by decide⟩
  rintro ⟨nodeEq, c', h⟩
  cases hq : nodeEq ⟨2, ⟨0, 1⟩⟩ ⟨9, ⟨0, 1⟩⟩ <;>
    simp [combine_rings_end, combine_rings_end_loop, ProtoRing.merge_ring, ProtoRing.first,
      ProtoRing.last, Outcome.bind, hq] at h

/-- C2 (amended). `combine_rings_start` picks the first other ring, in iteration order, whose
last node lies at the location of the first node of `ring` (`pre` are the other rings in front
of it, none of which has its last node there). When moreover that last node `==` the first
node of `ring`, the call returns the position of the picked ring `m`, the nodes of `ring`
become the old nodes of `m` followed by the old nodes of `ring` without the first one (so the
new `first()` is the old `first()` of `m` and, `ring` having at least two nodes, `last()` is
unchanged), and `m` is removed from the collection and nothing else is. -/
theorem combine_rings_start_first_location_match (nodeEq : NodeRef → NodeRef → Bool)
    (c : Rings) (f b : NodeRef) (pre post : List ProtoRing) (m : ProtoRing)
    (hfst : c.ring.first = some f)
    (hsplit : c.before ++ c.after = pre ++ m :: post)
    (hpre : ∀ x ∈ pre, ∃ g, x.last = some g ∧ g.location ≠ f.location)
    (hb : m.last = some b) (hloc : b.location = f.location)
    (heq : nodeEq b f = true) :
    ∃ (pos : Nat) (c' : Rings),
      combine_rings_start nodeEq c = .returned (some pos, c') ∧
      pos = (if pre.length < c.before.length then pre.length else pre.length + 1) ∧
      c.toList[pos]? = some m ∧
      c'.ring = { c.ring with m_nodes := m.m_nodes ++ c.ring.m_nodes.drop 1 } ∧
      c'.ring.first = m.first ∧
      (2 ≤ c.ring.m_nodes.length → c'.ring.last = c.ring.last) ∧
      c'.before ++ c'.after = pre ++ post ∧
      c'.toList.length + 1 = c.toList.length := by
  have hmerge : (c.ring.swap_nodes m).1.merge_ring nodeEq (c.ring.swap_nodes m).2 =
      .returned ({ c.ring with m_nodes := m.m_nodes ++ c.ring.m_nodes.tail },
        { m with m_nodes := c.ring.m_nodes }) := by
    have h := ProtoRing.merge_ring_of_eq nodeEq (c.ring.swap_nodes m).1 (c.ring.swap_nodes m).2
      b f hb hfst heq
    simpa [ProtoRing.swap_nodes] using h
  have hm_ne : m.m_nodes ≠ [] := by
    intro h; simp [ProtoRing.last, h] at hb
  have hfirst : ProtoRing.first
      { c.ring with m_nodes := m.m_nodes ++ c.ring.m_nodes.tail } = m.first := by
    cases hm : m.m_nodes with
    | nil => exact absurd hm hm_ne
    | cons a t => simp [ProtoRing.first, hm]
  have hlast : 2 ≤ c.ring.m_nodes.length → ProtoRing.last
      { c.ring with m_nodes := m.m_nodes ++ c.ring.m_nodes.tail } = c.ring.last := by
    intro h2
    cases hr : c.ring.m_nodes with
    | nil => simp [hr] at h2
    | cons a t =>
      cases t with
      | nil => simp [hr] at h2
      | cons d u =>
        simp [ProtoRing.last, hr, List.getLast?_append, List.getLast?_cons_cons,
          List.getLast?_eq_getLast (d :: u) (List.cons_ne_nil d u)]
  rcases split_cases c.before c.after pre post m hsplit with ⟨rest, hbf, hp⟩ | ⟨mid, hp, ha⟩
  · refine ⟨pre.length, ⟨pre ++ rest, { c.ring with m_nodes := m.m_nodes ++ c.ring.m_nodes.tail },
      c.after⟩, ?_, ?_, ?_, ?_, hfirst, hlast, ?_, ?_⟩
    · simp only [combine_rings_start, hfst, hbf]
      rw [combine_rings_start_loop_found nodeEq c.ring f.location pre rest m b 0 hpre hb hloc,
        hmerge]
      simp [Outcome.bind]
    · simp [hbf]
    · have := getElem?_append_cons_length pre (rest ++ c.ring :: c.after) m
      simpa [Rings.toList, hbf] using this
    · simp
    · simp [hp]
    · simp [Rings.toList, hbf]
      omega
  · have hbefore : ∀ x ∈ c.before, ∃ g, x.last = some g ∧ g.location ≠ f.location :=
      fun x hx => hpre x (by rw [hp]; exact List.mem_append_left _ hx)
    have hmid : ∀ x ∈ mid, ∃ g, x.last = some g ∧ g.location ≠ f.location :=
      fun x hx => hpre x (by rw [hp]; exact List.mem_append_right _ hx)
    refine ⟨pre.length + 1, ⟨c.before,
      { c.ring with m_nodes := m.m_nodes ++ c.ring.m_nodes.tail }, mid ++ post⟩,
      ?_, ?_, ?_, ?_, hfirst, hlast, ?_, ?_⟩
    · simp only [combine_rings_start, hfst]
      rw [combine_rings_start_loop_none nodeEq c.ring f.location c.before 0 hbefore]
      simp only [Outcome.bind]
      rw [ha, combine_rings_start_loop_found nodeEq c.ring f.location mid post m b
        (c.before.length + 1) hmid hb hloc, hmerge]
      simp [Outcome.bind, hp]
      omega
    · simp [hp]
    · have := getElem?_append_cons_length (c.before ++ c.ring :: mid) post m
      have hidx : (c.before ++ c.ring :: mid).length = pre.length + 1 := by
        simp [hp]; omega
      rw [hidx] at this
      simpa [Rings.toList, ha] using this
    · simp
    · simp [hp]
    · simp [Rings.toList, ha]
      omega

/-- Witness for C2 (amended): the collection `[m, x, ring]` with `m = [1, 2]` and
`ring = [2, 3]` (nodes written by id) and a ring `x` elsewhere. -/
theorem combine_rings_start_first_location_match_witness :
    ∃ (pos : Nat) (c' : Rings),
      combine_rings_start same_ref
          ⟨[⟨[⟨1, ⟨0, 0⟩⟩, ⟨2, ⟨0, 1⟩⟩], 10, []⟩, ⟨[⟨5, ⟨7, 7⟩⟩, ⟨6, ⟨8, 8⟩⟩], 11, []⟩],
            ⟨[⟨2, ⟨0, 1⟩⟩, ⟨3, ⟨1, 1⟩⟩], 12, [4]⟩, []⟩ =
        .returned (some pos, c') ∧
      pos = 0 ∧
      c'.ring = ⟨[⟨1, ⟨0, 0⟩⟩, ⟨2, ⟨0, 1⟩⟩, ⟨3, ⟨1, 1⟩⟩], 12, [4]⟩ ∧
      c'.before ++ c'.after = [⟨[⟨5, ⟨7, 7⟩⟩, ⟨6, ⟨8, 8⟩⟩], 11, []⟩] := by
  obtain ⟨pos, c', h1, h2, _, h4, _, _, h7, _⟩ :=
    combine_rings_start_first_location_match same_ref
      ⟨[⟨[⟨1, ⟨0, 0⟩⟩, ⟨2, ⟨0, 1⟩⟩], 10, []⟩, ⟨[⟨5, ⟨7, 7⟩⟩, ⟨6, ⟨8, 8⟩⟩], 11, []⟩],
        ⟨[⟨2, ⟨0, 1⟩⟩, ⟨3, ⟨1, 1⟩⟩], 12, [4]⟩, []⟩
      ⟨2, ⟨0, 1⟩⟩ ⟨2, ⟨0, 1⟩⟩ [] [⟨[⟨5, ⟨7, 7⟩⟩, ⟨6, ⟨8, 8⟩⟩], 11, []⟩]
      ⟨[⟨1, ⟨0, 0⟩⟩, ⟨2, ⟨0, 1⟩⟩], 10, []⟩ rfl rfl (by decide) rfl rfl rfl
  exact ⟨pos, c', h1, by simpa using h2, by simpa using h4, h7⟩

/-- Counterexample to C2 as stated. In the collection `[ring, m', m]` with `ring = [2, 3]`,
`m' = [8, 9]` and `m = [1, 2]`, node 9 lies at the location of node 2: `m` is the first other
ring whose last node is the same node as the first node of `ring`, but whatever `operator==`
on `NodeRef` is, the call does not return `m` (position 2). With equality by id it ends the
process at `m'`, with equality by location it merges and returns `m'` (position 1). -/
theorem combine_rings_start_same_node_counterexample :
    (ProtoRing.last ⟨[⟨1, ⟨0, 0⟩⟩, ⟨2, ⟨0, 1⟩⟩], 13, []⟩ =
        ProtoRing.first ⟨[⟨2, ⟨0, 1⟩⟩, ⟨3, ⟨1, 1⟩⟩], 11, []⟩ ∧
      ProtoRing.last ⟨[⟨8, ⟨5, 5⟩⟩, ⟨9, ⟨0, 1⟩⟩], 12, []⟩ ≠
        ProtoRing.first ⟨[⟨2, ⟨0, 1⟩⟩, ⟨3, ⟨1, 1⟩⟩], 11, []⟩) ∧
    (¬ ∃ (nodeEq : NodeRef → NodeRef → Bool) (c' : Rings),
      combine_rings_start nodeEq
          ⟨[], ⟨[⟨2, ⟨0, 1⟩⟩, ⟨3, ⟨1, 1⟩⟩], 11, []⟩,
            [⟨[⟨8, ⟨5, 5⟩⟩, ⟨9, ⟨0, 1⟩⟩], 12, []⟩, ⟨[⟨1, ⟨0, 0⟩⟩, ⟨2, ⟨0, 1⟩⟩], 13, []⟩]⟩ =
        .returned (some 2, c')) ∧
    combine_rings_start same_ref
        ⟨[], ⟨[⟨2, ⟨0, 1⟩⟩, ⟨3, ⟨1, 1⟩⟩], 11, []⟩,
          [⟨[⟨8, ⟨5, 5⟩⟩, ⟨9, ⟨0, 1⟩⟩], 12, []⟩, ⟨[⟨1, ⟨0, 0⟩⟩, ⟨2, ⟨0, 1⟩⟩], 13, []⟩]⟩ =
      .exit 3 ∧
    combine_rings_start same_location
        ⟨[], ⟨[⟨2, ⟨0, 1⟩⟩, ⟨3, ⟨1, 1⟩⟩], 11, []⟩,
          [⟨[⟨8, ⟨5, 5⟩⟩, ⟨9, ⟨0, 1⟩⟩], 12, []⟩, ⟨[⟨1, ⟨0, 0⟩⟩, ⟨2, ⟨0, 1⟩⟩], 13, []⟩]⟩ =
      .returned (some 1, ⟨[], ⟨[⟨8, ⟨5, 5⟩⟩, ⟨9, ⟨0, 1⟩⟩, ⟨3, ⟨1, 1⟩⟩], 11, []⟩,
        [⟨[⟨1, ⟨0, 0⟩⟩, ⟨2, ⟨0, 1⟩⟩], 13, []⟩]⟩) := by
  refine ⟨⟨by decide, by decide⟩, ?_, by decide, by decide⟩
  rintro ⟨nodeEq, c', h⟩
  cases hq : nodeEq ⟨9, ⟨0, 1⟩⟩ ⟨2, ⟨0, 1⟩⟩ <;>
    simp [combine_rings_start, combine_rings_start_loop, ProtoRing.merge_ring,
      ProtoRing.swap_nodes, ProtoRing.first, ProtoRing.last, Outcome.bind, hq] at h

/-- C3. Forward case of `merge_ring`: when `last() == other.first()`, the call returns, this
ring's nodes are its old nodes followed by the other ring's nodes from the second one onward
(so the new length is the old length plus the other length minus one, `first()` is unchanged
and, the other ring having at least two nodes, `last()` is the other ring's `last()`), nothing
else of this ring changes, and the other ring is unchanged. -/
theorem merge_ring_forward (nodeEq : NodeRef → NodeRef → Bool) (self other : ProtoRing)
    (l f : NodeRef) (hl : self.last = some l) (hf : other.first = some f)
    (heq : nodeEq l f = true) :
    ∃ merged : ProtoRing,
      self.merge_ring nodeEq other = .returned (merged, other) ∧
      merged.m_nodes = self.m_nodes ++ other.m_nodes.drop 1 ∧
      merged.m_nodes.length = self.m_nodes.length + other.m_nodes.length - 1 ∧
      merged.first = self.first ∧
      (2 ≤ other.m_nodes.length → merged.last = other.last) ∧
      merged.m_first_segment = self.m_first_segment ∧
      merged.m_inner = self.m_inner := by
  refine ⟨{ self with m_nodes := self.m_nodes ++ other.m_nodes.tail }, ?_, ?_, ?_, ?_, ?_, rfl, rfl⟩
  · exact ProtoRing.merge_ring_of_eq nodeEq self other l f hl hf heq
  · simp
  · have hne : other.m_nodes ≠ [] := by
      intro h; simp [ProtoRing.first, h] at hf
    have : 0 < other.m_nodes.length := List.length_pos.mpr hne
    simp only [List.length_append, List.length_tail]
    omega
  · have hne : self.m_nodes ≠ [] := by
      intro h; simp [ProtoRing.last, h] at hl
    cases hs : self.m_nodes with
    | nil => exact absurd hs hne
    | cons a t => simp [ProtoRing.first, hs]
  · intro h2
    cases ho : other.m_nodes with
    | nil => simp [ho] at h2
    | cons a t =>
      cases t with
      | nil => simp [ho] at h2
      | cons b u =>
        simp [ProtoRing.last, ho, List.getLast?_append, List.getLast?_cons_cons,
          List.getLast?_eq_getLast (b :: u) (List.cons_ne_nil b u)]

/-- Witness for C3: `[1, 2]` merged with `[2, 3]` (nodes written by id). -/
theorem merge_ring_forward_witness :
    ∃ merged : ProtoRing,
      ProtoRing.merge_ring same_ref ⟨[⟨1, ⟨0, 0⟩⟩, ⟨2, ⟨0, 1⟩⟩], 7, []⟩
          ⟨[⟨2, ⟨0, 1⟩⟩, ⟨3, ⟨1, 1⟩⟩], 8, []⟩ =
        .returned (merged, ⟨[⟨2, ⟨0, 1⟩⟩, ⟨3, ⟨1, 1⟩⟩], 8, []⟩) ∧
      merged.m_nodes = [⟨1, ⟨0, 0⟩⟩, ⟨2, ⟨0, 1⟩⟩] ++ [⟨3, ⟨1, 1⟩⟩] :=
  have h := merge_ring_forward same_ref ⟨[⟨1, ⟨0, 0⟩⟩, ⟨2, ⟨0, 1⟩⟩], 7, []⟩
    ⟨[⟨2, ⟨0, 1⟩⟩, ⟨3, ⟨1, 1⟩⟩], 8, []⟩ ⟨2, ⟨0, 1⟩⟩ ⟨2, ⟨0, 1⟩⟩ rfl rfl rfl
  h.imp fun _ hm => ⟨hm.1, hm.2.1⟩

/-- C4, evaluation at the failing input. The rings `[1, 2]` and `[3, 2]` (nodes written by id)
meet tail to tail: the last node of the first differs from the first node of the second and
equals its last node, under equality by id and under equality by location. `merge_ring` does
not append `[3]`: it ends the process with status 3. -/
theorem merge_ring_tail_to_tail_exits :
    (same_ref ⟨2, ⟨1, 1⟩⟩ ⟨3, ⟨2, 0⟩⟩ = false ∧ same_ref ⟨2, ⟨1, 1⟩⟩ ⟨2, ⟨1, 1⟩⟩ = true ∧
      ProtoRing.merge_ring same_ref ⟨[⟨1, ⟨0, 0⟩⟩, ⟨2, ⟨1, 1⟩⟩], 10, []⟩
        ⟨[⟨3, ⟨2, 0⟩⟩, ⟨2, ⟨1, 1⟩⟩], 11, []⟩ = .exit 3) ∧
    (same_location ⟨2, ⟨1, 1⟩⟩ ⟨3, ⟨2, 0⟩⟩ = false ∧
      same_location ⟨2, ⟨1, 1⟩⟩ ⟨2, ⟨1, 1⟩⟩ = true ∧
      ProtoRing.merge_ring same_location ⟨[⟨1, ⟨0, 0⟩⟩, ⟨2, ⟨1, 1⟩⟩], 10, []⟩
        ⟨[⟨3, ⟨2, 0⟩⟩, ⟨2, ⟨1, 1⟩⟩], 11, []⟩ = .exit 3) := by
  decide

/-- C5 (amended). When the last node of this ring `==` neither the first nor the last node of
the other ring, `merge_ring` does not return to its caller: it ends the process with
`exit(3)`. No error value is produced and no node has been appended at that point. -/
theorem merge_ring_mismatch_exits (nodeEq : NodeRef → NodeRef → Bool) (self other : ProtoRing)
    (l f b : NodeRef) (hl : self.last = some l) (hf : other.first = some f)
    (_hb : other.last = some b) (hnf : nodeEq l f = false) (_hnb : nodeEq l b = false) :
    self.merge_ring nodeEq other = .exit 3 :=
  ProtoRing.merge_ring_of_ne nodeEq self other l f hl hf hnf

/-- Witness for C5 (amended): the rings `[1, 2]` and `[3, 4]`, which share no node. -/
theorem merge_ring_mismatch_exits_witness :
    ProtoRing.merge_ring same_ref ⟨[⟨1, ⟨0, 0⟩⟩, ⟨2, ⟨1, 1⟩⟩], 10, []⟩
      ⟨[⟨3, ⟨2, 0⟩⟩, ⟨4, ⟨3, 3⟩⟩], 11, []⟩ = .exit 3 :=
  merge_ring_mismatch_exits same_ref ⟨[⟨1, ⟨0, 0⟩⟩, ⟨2, ⟨1, 1⟩⟩], 10, []⟩
    ⟨[⟨3, ⟨2, 0⟩⟩, ⟨4, ⟨3, 3⟩⟩], 11, []⟩ ⟨2, ⟨1, 1⟩⟩ ⟨3, ⟨2, 0⟩⟩ ⟨4, ⟨3, 3⟩⟩ rfl rfl rfl rfl rfl

/-- Counterexample to C5 as stated. For the rings `[1, 2]` and `[3, 4]`, which share no node,
there is no `operator==` on `NodeRef` that tells node 2 from nodes 3 and 4 and under which
`merge_ring` returns anything to its caller, an error value included. -/
theorem merge_ring_mismatch_counterexample :
    ¬ ∃ (nodeEq : NodeRef → NodeRef → Bool) (r : ProtoRing × ProtoRing),
      nodeEq ⟨2, ⟨1, 1⟩⟩ ⟨3, ⟨2, 0⟩⟩ = false ∧ nodeEq ⟨2, ⟨1, 1⟩⟩ ⟨4, ⟨3, 3⟩⟩ = false ∧
      ProtoRing.merge_ring nodeEq ⟨[⟨1, ⟨0, 0⟩⟩, ⟨2, ⟨1, 1⟩⟩], 10, []⟩
        ⟨[⟨3, ⟨2, 0⟩⟩, ⟨4, ⟨3, 3⟩⟩], 11, []⟩ = .returned r := by
  rintro ⟨nodeEq, r, h1, _, h3⟩
  simp [ProtoRing.merge_ring, ProtoRing.first, ProtoRing.last, h1] at h3

/-- C6, evaluation at the failing input. The ring around the whole coordinate range of the
planet, longitude -180 to 180 and latitude -90 to 90 degrees in units of 1e-7 degree, listed
counter-clockwise: all coordinates are 32 bit integers, the shoelace sum is
12960000000000000000, which is positive, but the 64 bit sum of `is_outer` has wrapped around
to -5486744073709551616 and the ring is classified outer. -/
theorem is_outer_world_box_overflow :
    (∀ nr ∈ [(⟨1, ⟨-1800000000, -900000000⟩⟩ : NodeRef), ⟨2, ⟨1800000000, -900000000⟩⟩,
        ⟨3, ⟨1800000000, 900000000⟩⟩, ⟨4, ⟨-1800000000, 900000000⟩⟩,
        ⟨1, ⟨-1800000000, -900000000⟩⟩], nr.location.inRange) ∧
    shoelace [⟨1, ⟨-1800000000, -900000000⟩⟩, ⟨2, ⟨1800000000, -900000000⟩⟩,
        ⟨3, ⟨1800000000, 900000000⟩⟩, ⟨4, ⟨-1800000000, 900000000⟩⟩,
        ⟨1, ⟨-1800000000, -900000000⟩⟩] = 12960000000000000000 ∧
    ProtoRing.is_outer_sum ⟨[⟨1, ⟨-1800000000, -900000000⟩⟩, ⟨2, ⟨1800000000, -900000000⟩⟩,
        ⟨3, ⟨1800000000, 900000000⟩⟩, ⟨4, ⟨-1800000000, 900000000⟩⟩,
        ⟨1, ⟨-1800000000, -900000000⟩⟩], 0, []⟩ = -5486744073709551616 ∧
    ProtoRing.is_outer ⟨[⟨1, ⟨-1800000000, -900000000⟩⟩, ⟨2, ⟨1800000000, -900000000⟩⟩,
        ⟨3, ⟨1800000000, 900000000⟩⟩, ⟨4, ⟨-1800000000, 900000000⟩⟩,
        ⟨1, ⟨-1800000000, -900000000⟩⟩], 0, []⟩ = true := by
  have hs : shoelace [⟨1, ⟨-1800000000, -900000000⟩⟩, ⟨2, ⟨1800000000, -900000000⟩⟩,
      ⟨3, ⟨1800000000, 900000000⟩⟩, ⟨4, ⟨-1800000000, 900000000⟩⟩,
      ⟨1, ⟨-1800000000, -900000000⟩⟩] = 12960000000000000000 := by
    simp [shoelace, Finset.sum_range_succ, cross]
  have hsum : ProtoRing.is_outer_sum ⟨[⟨1, ⟨-1800000000, -900000000⟩⟩,
      ⟨2, ⟨1800000000, -900000000⟩⟩, ⟨3, ⟨1800000000, 900000000⟩⟩,
      ⟨4, ⟨-1800000000, 900000000⟩⟩, ⟨1, ⟨-1800000000, -900000000⟩⟩], 0, []⟩ =
      -5486744073709551616 := by
    rw [ProtoRing.is_outer_sum_eq, hs]
    norm_num [ProtoRing.wrap64]
  refine ⟨?_, hs, hsum, ?_⟩
  · simp [Location.inRange]
  · rw [ProtoRing.is_outer, hsum]
    decide

/-- C7 (amended). With x to the right and y upward, a ring listed clockwise has a negative
shoelace sum and a ring listed counter-clockwise a positive one. As long as the sum fits the
64 bit accumulator, `is_outer` reports outer for a negative (or zero) sum and inner for a
positive sum: clockwise rings are the outer ones. -/
theorem is_outer_by_winding (self : ProtoRing) (h1 : -2 ^ 63 ≤ shoelace self.m_nodes)
    (h2 : shoelace self.m_nodes < 2 ^ 63) :
    (shoelace self.m_nodes ≤ 0 → self.is_outer = true) ∧
    (0 < shoelace self.m_nodes → self.is_outer = false) := by
  rw [ProtoRing.is_outer_of_range self h1 h2]
  constructor
  · intro h; simpa using h
  · intro h; simpa using h

/-- Witness for C7 (amended): the unit square listed clockwise,
`[(0,0), (0,1), (1,1), (1,0), (0,0)]`, has shoelace sum -2 and is classified outer. -/
theorem is_outer_by_winding_witness :
    shoelace [⟨1, ⟨0, 0⟩⟩, ⟨2, ⟨0, 1⟩⟩, ⟨3, ⟨1, 1⟩⟩, ⟨4, ⟨1, 0⟩⟩, ⟨1, ⟨0, 0⟩⟩] = -2 ∧
    ProtoRing.is_outer
      ⟨[⟨1, ⟨0, 0⟩⟩, ⟨2, ⟨0, 1⟩⟩, ⟨3, ⟨1, 1⟩⟩, ⟨4, ⟨1, 0⟩⟩, ⟨1, ⟨0, 0⟩⟩], 0, []⟩ = true := by
  have hs : shoelace [⟨1, ⟨0, 0⟩⟩, ⟨2, ⟨0, 1⟩⟩, ⟨3, ⟨1, 1⟩⟩, ⟨4, ⟨1, 0⟩⟩, ⟨1, ⟨0, 0⟩⟩] = -2 := by
    simp [shoelace, Finset.sum_range_succ, cross]
  refine ⟨hs, ?_⟩
  exact (is_outer_by_winding
    ⟨[⟨1, ⟨0, 0⟩⟩, ⟨2, ⟨0, 1⟩⟩, ⟨3, ⟨1, 1⟩⟩, ⟨4, ⟨1, 0⟩⟩, ⟨1, ⟨0, 0⟩⟩], 0, []⟩
    (by rw [hs]; norm_num) (by rw [hs]; norm_num)).1 (by rw [hs]; norm_num)

/-- Counterexample to C7 as stated: the ring `[(0,0), (1,0), (1,1), (0,1), (0,0)]` is closed
and listed counter-clockwise (its shoelace sum is 2), and `is_outer` classifies it inner. -/
theorem is_outer_counter_clockwise_counterexample :
    ProtoRing.closed
      ⟨[⟨1, ⟨0, 0⟩⟩, ⟨2, ⟨1, 0⟩⟩, ⟨3, ⟨1, 1⟩⟩, ⟨4, ⟨0, 1⟩⟩, ⟨1, ⟨0, 0⟩⟩], 0, []⟩ = some true ∧
    shoelace [⟨1, ⟨0, 0⟩⟩, ⟨2, ⟨1, 0⟩⟩, ⟨3, ⟨1, 1⟩⟩, ⟨4, ⟨0, 1⟩⟩, ⟨1, ⟨0, 0⟩⟩] = 2 ∧
    ProtoRing.is_outer
      ⟨[⟨1, ⟨0, 0⟩⟩, ⟨2, ⟨1, 0⟩⟩, ⟨3, ⟨1, 1⟩⟩, ⟨4, ⟨0, 1⟩⟩, ⟨1, ⟨0, 0⟩⟩], 0, []⟩ = false := by
  have hs : shoelace [⟨1, ⟨0, 0⟩⟩, ⟨2, ⟨1, 0⟩⟩, ⟨3, ⟨1, 1⟩⟩, ⟨4, ⟨0, 1⟩⟩, ⟨1, ⟨0, 0⟩⟩] = 2 := by
    simp [shoelace, Finset.sum_range_succ, cross]
  refine ⟨by decide, hs, ?_⟩
  rw [ProtoRing.is_outer, ProtoRing.is_outer_sum_eq, hs]
  decide

/-- C8, evaluation at the failing input. An L-shaped ring within the valid coordinate range
(corners, in units of 2^28: (-6,-3), (6,-3), (6,1), (2,1), (2,3), (-6,3)), listed
counter-clockwise: its shoelace sum is 2^63, the sum of the reversed ring is -2^63, both are
non-zero, and `is_outer` classifies the ring and the reversed ring alike, as outer, because the
64 bit sum of the first has wrapped around to -2^63. -/
theorem is_outer_reversed_same_class :
    (∀ nr ∈ ([⟨1, ⟨-1610612736, -805306368⟩⟩, ⟨2, ⟨1610612736, -805306368⟩⟩,
      ⟨3, ⟨1610612736, 268435456⟩⟩, ⟨4, ⟨536870912, 268435456⟩⟩,
      ⟨5, ⟨536870912, 805306368⟩⟩, ⟨6, ⟨-1610612736, 805306368⟩⟩,
      ⟨1, ⟨-1610612736, -805306368⟩⟩] : List NodeRef), nr.location.inRange) ∧
    List.reverse [⟨1, ⟨-1610612736, -805306368⟩⟩, ⟨2, ⟨1610612736, -805306368⟩⟩,
      ⟨3, ⟨1610612736, 268435456⟩⟩, ⟨4, ⟨536870912, 268435456⟩⟩,
      ⟨5, ⟨536870912, 805306368⟩⟩, ⟨6, ⟨-1610612736, 805306368⟩⟩,
      ⟨1, ⟨-1610612736, -805306368⟩⟩] = ([⟨1, ⟨-1610612736, -805306368⟩⟩, ⟨6, ⟨-1610612736, 805306368⟩⟩,
      ⟨5, ⟨536870912, 805306368⟩⟩, ⟨4, ⟨536870912, 268435456⟩⟩,
      ⟨3, ⟨1610612736, 268435456⟩⟩, ⟨2, ⟨1610612736, -805306368⟩⟩,
      ⟨1, ⟨-1610612736, -805306368⟩⟩] : List NodeRef) ∧
    shoelace [⟨1, ⟨-1610612736, -805306368⟩⟩, ⟨2, ⟨1610612736, -805306368⟩⟩,
      ⟨3, ⟨1610612736, 268435456⟩⟩, ⟨4, ⟨536870912, 268435456⟩⟩,
      ⟨5, ⟨536870912, 805306368⟩⟩, ⟨6, ⟨-1610612736, 805306368⟩⟩,
      ⟨1, ⟨-1610612736, -805306368⟩⟩] = 9223372036854775808 ∧
    shoelace [⟨1, ⟨-1610612736, -805306368⟩⟩, ⟨6, ⟨-1610612736, 805306368⟩⟩,
      ⟨5, ⟨536870912, 805306368⟩⟩, ⟨4, ⟨536870912, 268435456⟩⟩,
      ⟨3, ⟨1610612736, 268435456⟩⟩, ⟨2, ⟨1610612736, -805306368⟩⟩,
      ⟨1, ⟨-1610612736, -805306368⟩⟩] = -9223372036854775808 ∧
    ProtoRing.is_outer ⟨[⟨1, ⟨-1610612736, -805306368⟩⟩, ⟨2, ⟨1610612736, -805306368⟩⟩,
      ⟨3, ⟨1610612736, 268435456⟩⟩, ⟨4, ⟨536870912, 268435456⟩⟩,
      ⟨5, ⟨536870912, 805306368⟩⟩, ⟨6, ⟨-1610612736, 805306368⟩⟩,
      ⟨1, ⟨-1610612736, -805306368⟩⟩], 0, []⟩ = true ∧
    ProtoRing.is_outer ⟨[⟨1, ⟨-1610612736, -805306368⟩⟩, ⟨6, ⟨-1610612736, 805306368⟩⟩,
      ⟨5, ⟨536870912, 805306368⟩⟩, ⟨4, ⟨536870912, 268435456⟩⟩,
      ⟨3, ⟨1610612736, 268435456⟩⟩, ⟨2, ⟨1610612736, -805306368⟩⟩,
      ⟨1, ⟨-1610612736, -805306368⟩⟩], 0, []⟩ = true := by
  have hs : shoelace [⟨1, ⟨-1610612736, -805306368⟩⟩, ⟨2, ⟨1610612736, -805306368⟩⟩,
      ⟨3, ⟨1610612736, 268435456⟩⟩, ⟨4, ⟨536870912, 268435456⟩⟩,
      ⟨5, ⟨536870912, 805306368⟩⟩, ⟨6, ⟨-1610612736, 805306368⟩⟩,
      ⟨1, ⟨-1610612736, -805306368⟩⟩] = 9223372036854775808 := by
    simp [shoelace, Finset.sum_range_succ, cross]
  have hr : shoelace [⟨1, ⟨-1610612736, -805306368⟩⟩, ⟨6, ⟨-1610612736, 805306368⟩⟩,
      ⟨5, ⟨536870912, 805306368⟩⟩, ⟨4, ⟨536870912, 268435456⟩⟩,
      ⟨3, ⟨1610612736, 268435456⟩⟩, ⟨2, ⟨1610612736, -805306368⟩⟩,
      ⟨1, ⟨-1610612736, -805306368⟩⟩] = -9223372036854775808 := by
    simp [shoelace, Finset.sum_range_succ, cross]
  refine ⟨?_, by simp, hs, hr, ?_, ?_⟩
  · simp [Location.inRange]
  · rw [ProtoRing.is_outer, ProtoRing.is_outer_sum_eq, hs]
    norm_num [ProtoRing.wrap64]
  · rw [ProtoRing.is_outer, ProtoRing.is_outer_sum_eq, hr]
    norm_num [ProtoRing.wrap64]

/-- C9. The walk of `find_outer` from the ring at `start`: whenever it returns a ring `r`
(within `fuel` evaluations of the loop condition), `r` is `r_k` for the least `k` such that
`r_k` is outer, so `r` is outer; conversely, when the chain reaches a first outer ring `r_k`,
the walk returns it as soon as the fuel exceeds `k`. In particular an inner ring whose seed
segment has a left neighbour owned by an outer ring gets that outer ring. -/
theorem find_outer_first_outer (m : Memory) (start : Nat) :
    (∀ fuel r, find_outer m fuel start = some (.returned r) →
      ∃ k, k < fuel ∧ first_outer_at m start k r) ∧
    (∀ k r, first_outer_at m start k r →
      ∀ fuel, k < fuel → find_outer m fuel start = some (.returned r)) ∧
    (∀ outer, (m.rings start).is_outer = false → next_ring m start = some outer →
      (m.rings outer).is_outer = true →
      ∀ fuel, 2 ≤ fuel → find_outer m fuel start = some (.returned outer)) := by
  have hconv : ∀ k r, first_outer_at m start k r →
      ∀ fuel, k < fuel → find_outer m fuel start = some (.returned r) := by
    intro k r ⟨hchain, houter, hinner⟩ fuel hk
    obtain ⟨d, rfl⟩ : ∃ d, fuel = d + 1 + k := ⟨fuel - 1 - k, by omega⟩
    rw [find_outer_along_chain m start k (d + 1) r hchain hinner]
    simp [find_outer, houter]
  refine ⟨fun fuel r h => find_outer_returned m fuel start r h, hconv, ?_⟩
  intro outer hstart hnext houter fuel hfuel
  refine hconv 1 outer ⟨?_, houter, ?_⟩ fuel (by omega)
  · simp [chain, hnext]
  · intro j hj rj hrj
    have hj0 : j = 0 := by omega
    subst hj0
    simp only [chain, Option.some.injEq] at hrj
    subst hrj
    exact hstart

/-- Witness for C9: an inner square inside an outer square. The ring at address 1 is the outer
square (listed clockwise), the ring at address 2 the inner square (listed counter-clockwise)
with seed segment 200, whose left neighbour, segment 101, is owned by ring 1. The walk from
ring 2 returns ring 1, and `add_inner_ring` then records ring 2 as a hole of it. -/
theorem find_outer_first_outer_witness :
    find_outer
      ⟨fun a => if a = 1 then
          ⟨[⟨1, ⟨0, 0⟩⟩, ⟨2, ⟨0, 9⟩⟩, ⟨3, ⟨9, 9⟩⟩, ⟨4, ⟨9, 0⟩⟩, ⟨1, ⟨0, 0⟩⟩], 100, []⟩
        else ⟨[⟨5, ⟨3, 3⟩⟩, ⟨6, ⟨6, 3⟩⟩, ⟨7, ⟨6, 6⟩⟩, ⟨8, ⟨3, 6⟩⟩, ⟨5, ⟨3, 3⟩⟩], 200, []⟩,
        fun s => if s = 200 then some 101 else none,
        fun s => if s = 101 then some 1 else none⟩ 2 2 = some (.returned 1) ∧
    (ProtoRing.add_inner_ring
      ⟨[⟨1, ⟨0, 0⟩⟩, ⟨2, ⟨0, 9⟩⟩, ⟨3, ⟨9, 9⟩⟩, ⟨4, ⟨9, 0⟩⟩, ⟨1, ⟨0, 0⟩⟩], 100, []⟩ 2).m_inner =
      [2] :=
  ⟨(find_outer_first_outer
      ⟨fun a => if a = 1 then
          ⟨[⟨1, ⟨0, 0⟩⟩, ⟨2, ⟨0, 9⟩⟩, ⟨3, ⟨9, 9⟩⟩, ⟨4, ⟨9, 0⟩⟩, ⟨1, ⟨0, 0⟩⟩], 100, []⟩
        else ⟨[⟨5, ⟨3, 3⟩⟩, ⟨6, ⟨6, 3⟩⟩, ⟨7, ⟨6, 6⟩⟩, ⟨8, ⟨3, 6⟩⟩, ⟨5, ⟨3, 3⟩⟩], 200, []⟩,
        fun s => if s = 200 then some 101 else none,
        fun s => if s = 101 then some 1 else none⟩ 2).2.2 1
      (by simp [ProtoRing.is_outer, ProtoRing.is_outer_sum_eq, shoelace, Finset.sum_range_succ,
        cross, ProtoRing.wrap64])
      (by decide)
      (by simp [ProtoRing.is_outer, ProtoRing.is_outer_sum_eq, shoelace, Finset.sum_range_succ,
        cross, ProtoRing.wrap64])
      2 (Nat.le_refl 2),
    rfl⟩

/-- C10. When every ring of the chain from the ring at `start` exists and is classified inner,
the walk of `find_outer` never returns: for every number `n` of evaluations of the loop
condition, the loop is still running after them. -/
theorem find_outer_diverges (m : Memory) (start : Nat)
    (h : ∀ k, ∃ r, chain m start k = some r ∧ (m.rings r).is_outer = false) :
    ∀ n, find_outer m n start = none := by
  intro n
  obtain ⟨r, hr, _⟩ := h n
  have hinner : ∀ j, j < n → ∀ rj, chain m start j = some rj →
      (m.rings rj).is_outer = false := by
    intro j _ rj hrj
    obtain ⟨r', hr', hin⟩ := h j
    rw [hrj] at hr'
    cases hr'
    exact hin
  have hwalk := find_outer_along_chain m start n 0 r hr hinner
  rw [Nat.zero_add] at hwalk
  rw [hwalk]
  rfl

/-- Witness for C10: two inner rings (both listed counter-clockwise) whose seed segments are
each other's left neighbours' owners: ring 1 has seed segment 100 with left neighbour 201,
owned by ring 2, and ring 2 has seed segment 200 with left neighbour 101, owned by ring 1. -/
theorem find_outer_diverges_witness :
    ¬ ∃ n, find_outer
      ⟨fun a => if a = 1 then
          ⟨[⟨1, ⟨0, 0⟩⟩, ⟨2, ⟨9, 0⟩⟩, ⟨3, ⟨9, 9⟩⟩, ⟨4, ⟨0, 9⟩⟩, ⟨1, ⟨0, 0⟩⟩], 100, []⟩
        else ⟨[⟨5, ⟨3, 3⟩⟩, ⟨6, ⟨6, 3⟩⟩, ⟨7, ⟨6, 6⟩⟩, ⟨8, ⟨3, 6⟩⟩, ⟨5, ⟨3, 3⟩⟩], 200, []⟩,
        fun s => if s = 100 then some 201 else if s = 200 then some 101 else none,
        fun s => if s = 201 then some 2 else if s = 101 then some 1 else none⟩ n 1 ≠ none :=
  fun ⟨n, hn⟩ => hn <| find_outer_diverges _ 1 (by
    have hcases : ∀ j, ∃ r, chain
        ⟨fun a => if a = 1 then
            ⟨[⟨1, ⟨0, 0⟩⟩, ⟨2, ⟨9, 0⟩⟩, ⟨3, ⟨9, 9⟩⟩, ⟨4, ⟨0, 9⟩⟩, ⟨1, ⟨0, 0⟩⟩], 100, []⟩
          else ⟨[⟨5, ⟨3, 3⟩⟩, ⟨6, ⟨6, 3⟩⟩, ⟨7, ⟨6, 6⟩⟩, ⟨8, ⟨3, 6⟩⟩, ⟨5, ⟨3, 3⟩⟩], 200, []⟩,
          fun s => if s = 100 then some 201 else if s = 200 then some 101 else none,
          fun s => if s = 201 then some 2 else if s = 101 then some 1 else none⟩ 1 j =
        some r ∧ (r = 1 ∨ r = 2) := by
      intro j
      induction j with
      | zero => exact ⟨1, rfl, Or.inl rfl⟩
      | succ j ihj =>
        obtain ⟨q, hq, hq12⟩ := ihj
        rcases hq12 with rfl | rfl
        · exact ⟨2, by rw [chain, hq]; rfl, Or.inr rfl⟩
        · exact ⟨1, by rw [chain, hq]; rfl, Or.inl rfl⟩
    intro k
    obtain ⟨q, hq, hq12⟩ := hcases k
    refine ⟨q, hq, ?_⟩
    rcases hq12 with rfl | rfl <;>
      simp [ProtoRing.is_outer, ProtoRing.is_outer_sum_eq, shoelace, Finset.sum_range_succ,
        cross, ProtoRing.wrap64]) n

/-- C12. In a collection whose rings all have nodes, `combine_rings_end` returns `nullptr` if
and only if no other ring has its first node at the location of the last node of `ring`, and
`combine_rings_start` returns `nullptr` if and only if no other ring has its last node at the
location of the first node of `ring`; whenever `nullptr` is returned, the collection, `ring`
included, is unchanged. -/
theorem combine_rings_no_match (nodeEq : NodeRef → NodeRef → Bool) (c : Rings)
    (f l : NodeRef) (hf : c.ring.first = some f) (hl : c.ring.last = some l)
    (hne : ∀ x ∈ c.before ++ c.after, x.m_nodes ≠ []) :
    ((∃ c', combine_rings_end nodeEq c = .returned (none, c')) ↔
      ∀ x ∈ c.before ++ c.after, ∀ g, x.first = some g → g.location ≠ l.location) ∧
    ((∃ c', combine_rings_start nodeEq c = .returned (none, c')) ↔
      ∀ x ∈ c.before ++ c.after, ∀ g, x.last = some g → g.location ≠ f.location) ∧
    (∀ c', combine_rings_end nodeEq c = .returned (none, c') → c' = c) ∧
    (∀ c', combine_rings_start nodeEq c = .returned (none, c') → c' = c) := by
  refine ⟨⟨?_, ?_⟩, ⟨?_, ?_⟩, ?_, ?_⟩
  · rintro ⟨c', h⟩ x hx g hg
    obtain ⟨l', hl', hcases⟩ := combine_rings_end_returned nodeEq c none c' h
    rw [hl] at hl'
    cases hl'
    rcases hcases with ⟨_, _, hall⟩ | ⟨k, m, _, hp, _⟩ | ⟨k, m, _, hp, _⟩
    · obtain ⟨g', hg', hne'⟩ := hall x hx
      rw [hg] at hg'
      cases hg'
      exact hne'
    · cases hp
    · cases hp
  · intro h
    refine ⟨c, combine_rings_end_of_no_match nodeEq c l hl ?_⟩
    intro x hx
    obtain ⟨g, hg⟩ := first_of_ne_nil x (hne x hx)
    exact ⟨g, hg, h x hx g hg⟩
  · rintro ⟨c', h⟩ x hx g hg
    obtain ⟨f', hf', hcases⟩ := combine_rings_start_returned nodeEq c none c' h
    rw [hf] at hf'
    cases hf'
    rcases hcases with ⟨_, _, hall⟩ | ⟨k, m, _, hp, _⟩ | ⟨k, m, _, hp, _⟩
    · obtain ⟨g', hg', hne'⟩ := hall x hx
      rw [hg] at hg'
      cases hg'
      exact hne'
    · cases hp
    · cases hp
  · intro h
    refine ⟨c, combine_rings_start_of_no_match nodeEq c f hf ?_⟩
    intro x hx
    obtain ⟨g, hg⟩ := last_of_ne_nil x (hne x hx)
    exact ⟨g, hg, h x hx g hg⟩
  · intro c' h
    obtain ⟨_, _, hcases⟩ := combine_rings_end_returned nodeEq c none c' h
    rcases hcases with ⟨_, hc, _⟩ | ⟨k, m, _, hp, _⟩ | ⟨k, m, _, hp, _⟩
    · exact hc
    · cases hp
    · cases hp
  · intro c' h
    obtain ⟨_, _, hcases⟩ := combine_rings_start_returned nodeEq c none c' h
    rcases hcases with ⟨_, hc, _⟩ | ⟨k, m, _, hp, _⟩ | ⟨k, m, _, hp, _⟩
    · exact hc
    · cases hp
    · cases hp

/-- Witness for C12: the collection `[x, ring]` with `ring = [1, 2]` and `x = [5, 6]` elsewhere
(nodes written by id): both calls return `nullptr` and leave the collection as it is. -/
theorem combine_rings_no_match_witness :
    combine_rings_end same_ref
        ⟨[⟨[⟨5, ⟨7, 7⟩⟩, ⟨6, ⟨8, 8⟩⟩], 10, []⟩], ⟨[⟨1, ⟨0, 0⟩⟩, ⟨2, ⟨0, 1⟩⟩], 11, []⟩, []⟩ =
      .returned (none,
        ⟨[⟨[⟨5, ⟨7, 7⟩⟩, ⟨6, ⟨8, 8⟩⟩], 10, []⟩], ⟨[⟨1, ⟨0, 0⟩⟩, ⟨2, ⟨0, 1⟩⟩], 11, []⟩, []⟩) ∧
    combine_rings_start same_ref
        ⟨[⟨[⟨5, ⟨7, 7⟩⟩, ⟨6, ⟨8, 8⟩⟩], 10, []⟩], ⟨[⟨1, ⟨0, 0⟩⟩, ⟨2, ⟨0, 1⟩⟩], 11, []⟩, []⟩ =
      .returned (none,
        ⟨[⟨[⟨5, ⟨7, 7⟩⟩, ⟨6, ⟨8, 8⟩⟩], 10, []⟩], ⟨[⟨1, ⟨0, 0⟩⟩, ⟨2, ⟨0, 1⟩⟩], 11, []⟩, []⟩) := by
  have h := combine_rings_no_match same_ref
    ⟨[⟨[⟨5, ⟨7, 7⟩⟩, ⟨6, ⟨8, 8⟩⟩], 10, []⟩], ⟨[⟨1, ⟨0, 0⟩⟩, ⟨2, ⟨0, 1⟩⟩], 11, []⟩, []⟩
    ⟨1, ⟨0, 0⟩⟩ ⟨2, ⟨0, 1⟩⟩ rfl rfl (by decide)
  obtain ⟨c1, h1⟩ := h.1.mpr (by decide)
  obtain ⟨c2, h2⟩ := h.2.1.mpr (by decide)
  have e1 := h.2.2.1 c1 h1
  have e2 := h.2.2.2 c2 h2
  subst e1
  subst e2
  exact ⟨h1, h2⟩

/-- C13. Neither `combine_rings_end` nor `combine_rings_start` ever picks `ring` itself: the
position it returns is the position of another element of the collection. On a collection
that consists of one closed ring both return `nullptr` and leave it unchanged. The exclusion
is by position, not by contents: next to a second ring with the very same nodes, a closed ring
whose last node `==` its first node is merged with that second ring. -/
theorem combine_rings_never_self (nodeEq : NodeRef → NodeRef → Bool) :
    (∀ c p c', combine_rings_end nodeEq c = .returned (some p, c') →
      p ≠ c.before.length ∧ p < c.toList.length) ∧
    (∀ c p c', combine_rings_start nodeEq c = .returned (some p, c') →
      p ≠ c.before.length ∧ p < c.toList.length) ∧
    (∀ ring : ProtoRing, ring.closed = some true →
      combine_rings_end nodeEq ⟨[], ring, []⟩ = .returned (none, ⟨[], ring, []⟩) ∧
      combine_rings_start nodeEq ⟨[], ring, []⟩ = .returned (none, ⟨[], ring, []⟩)) ∧
    (∀ (ring twin : ProtoRing) (f l : NodeRef), twin.m_nodes = ring.m_nodes →
      ring.first = some f → ring.last = some l →
      ring.closed = some true → nodeEq l f = true →
      combine_rings_end nodeEq ⟨[], ring, [twin]⟩ = .returned (some 1,
        ⟨[], { ring with m_nodes := ring.m_nodes ++ ring.m_nodes.tail }, []⟩) ∧
      combine_rings_start nodeEq ⟨[], ring, [twin]⟩ = .returned (some 1,
        ⟨[], { ring with m_nodes := ring.m_nodes ++ ring.m_nodes.tail }, []⟩)) := by
  refine ⟨?_, ?_, ?_, ?_⟩
  · intro c p c' h
    obtain ⟨_, _, hcases⟩ := combine_rings_end_returned nodeEq c (some p) c' h
    rcases hcases with ⟨hp, _, _⟩ | ⟨k, m, hk, hp, _⟩ | ⟨k, m, hk, hp, _⟩
    · cases hp
    · cases hp
      have hlt : p < c.before.length := (List.getElem?_eq_some_iff.mp hk).1
      simp only [Rings.toList, List.length_append, List.length_cons]
      omega
    · cases hp
      have hlt : k < c.after.length := (List.getElem?_eq_some_iff.mp hk).1
      simp only [Rings.toList, List.length_append, List.length_cons]
      omega
  · intro c p c' h
    obtain ⟨_, _, hcases⟩ := combine_rings_start_returned nodeEq c (some p) c' h
    rcases hcases with ⟨hp, _, _⟩ | ⟨k, m, hk, hp, _⟩ | ⟨k, m, hk, hp, _⟩
    · cases hp
    · cases hp
      have hlt : p < c.before.length := (List.getElem?_eq_some_iff.mp hk).1
      simp only [Rings.toList, List.length_append, List.length_cons]
      omega
    · cases hp
      have hlt : k < c.after.length := (List.getElem?_eq_some_iff.mp hk).1
      simp only [Rings.toList, List.length_append, List.length_cons]
      omega
  · intro ring hclosed
    have hne : ring.m_nodes ≠ [] := by
      intro h
      simp [ProtoRing.closed, h] at hclosed
    obtain ⟨f, hf⟩ := first_of_ne_nil ring hne
    obtain ⟨l, hl⟩ := last_of_ne_nil ring hne
    exact ⟨combine_rings_end_of_no_match nodeEq ⟨[], ring, []⟩ l hl (by simp),
      combine_rings_start_of_no_match nodeEq ⟨[], ring, []⟩ f hf (by simp)⟩
  · intro ring twin f l htwin hf hl hclosed heq
    have hloc : f.location = l.location := by
      simp only [ProtoRing.first] at hf
      simp only [ProtoRing.last] at hl
      simpa [ProtoRing.closed, hf, hl] using hclosed
    have htf : twin.first = some f := by simpa [ProtoRing.first, htwin] using hf
    have htl : twin.last = some l := by simpa [ProtoRing.last, htwin] using hl
    constructor
    · have hm := ProtoRing.merge_ring_of_eq nodeEq ring twin l f hl htf heq
      simp [combine_rings_end, combine_rings_end_loop, hl, htf, hloc, hm, Outcome.bind, htwin]
    · have hm := ProtoRing.merge_ring_of_eq nodeEq (ring.swap_nodes twin).1
        (ring.swap_nodes twin).2 l f (by simpa [ProtoRing.swap_nodes, ProtoRing.last] using htl)
        (by simpa [ProtoRing.swap_nodes, ProtoRing.first] using hf) heq
      simp only [ProtoRing.swap_nodes, htwin] at hm
      simp [combine_rings_start, combine_rings_start_loop, hf, htl, hloc, hm, Outcome.bind,
        ProtoRing.swap_nodes, htwin]

/-- Witness for C13: the closed ring `[1, 2, 3, 1]` (nodes written by id) alone in its
collection, and next to a second ring with the same nodes. -/
theorem combine_rings_never_self_witness :
    combine_rings_end same_ref
        ⟨[], ⟨[⟨1, ⟨0, 0⟩⟩, ⟨2, ⟨0, 1⟩⟩, ⟨3, ⟨1, 1⟩⟩, ⟨1, ⟨0, 0⟩⟩], 10, []⟩, []⟩ =
      .returned (none,
        ⟨[], ⟨[⟨1, ⟨0, 0⟩⟩, ⟨2, ⟨0, 1⟩⟩, ⟨3, ⟨1, 1⟩⟩, ⟨1, ⟨0, 0⟩⟩], 10, []⟩, []⟩) ∧
    combine_rings_end same_ref
        ⟨[], ⟨[⟨1, ⟨0, 0⟩⟩, ⟨2, ⟨0, 1⟩⟩, ⟨3, ⟨1, 1⟩⟩, ⟨1, ⟨0, 0⟩⟩], 10, []⟩,
          [⟨[⟨1, ⟨0, 0⟩⟩, ⟨2, ⟨0, 1⟩⟩, ⟨3, ⟨1, 1⟩⟩, ⟨1, ⟨0, 0⟩⟩], 11, []⟩]⟩ =
      .returned (some 1,
        ⟨[], ⟨[⟨1, ⟨0, 0⟩⟩, ⟨2, ⟨0, 1⟩⟩, ⟨3, ⟨1, 1⟩⟩, ⟨1, ⟨0, 0⟩⟩,
          ⟨2, ⟨0, 1⟩⟩, ⟨3, ⟨1, 1⟩⟩, ⟨1, ⟨0, 0⟩⟩], 10, []⟩, []⟩) :=
  ⟨((combine_rings_never_self same_ref).2.2.1
      ⟨[⟨1, ⟨0, 0⟩⟩, ⟨2, ⟨0, 1⟩⟩, ⟨3, ⟨1, 1⟩⟩, ⟨1, ⟨0, 0⟩⟩], 10, []⟩ rfl).1,
    ((combine_rings_never_self same_ref).2.2.2
      ⟨[⟨1, ⟨0, 0⟩⟩, ⟨2, ⟨0, 1⟩⟩, ⟨3, ⟨1, 1⟩⟩, ⟨1, ⟨0, 0⟩⟩], 10, []⟩
      ⟨[⟨1, ⟨0, 0⟩⟩, ⟨2, ⟨0, 1⟩⟩, ⟨3, ⟨1, 1⟩⟩, ⟨1, ⟨0, 0⟩⟩], 11, []⟩
      ⟨1, ⟨0, 0⟩⟩ ⟨1, ⟨0, 0⟩⟩ rfl rfl rfl rfl rfl).1⟩

/-- C14, evaluation at the failing input. The collection `[ring, m]` with `ring = [1, 2]` and
`m = [9, 3]` (nodes written by id), where node 9 is another node at the location of node 2.
`closed()` and the scan of `combine_rings_end` go by location, so `m` is picked; `merge_ring`
then compares the two nodes with `operator==`: under no `operator==` that only holds nodes
with the same id equal does the call return, and with equality by id it ends the process with
`exit(3)` instead of leaving `ring = [1, 2, 3]`, as it would under equality by location. The
same happens in `combine_rings_start` for `ring = [2, 3]` and `m = [1, 9]`. -/
theorem combine_rings_distinct_nodes_exit :
    ((⟨9, ⟨0, 1⟩⟩ : NodeRef).location = (⟨2, ⟨0, 1⟩⟩ : NodeRef).location ∧
      (⟨9, ⟨0, 1⟩⟩ : NodeRef).ref ≠ (⟨2, ⟨0, 1⟩⟩ : NodeRef).ref) ∧
    ProtoRing.closed ⟨[⟨2, ⟨0, 1⟩⟩, ⟨3, ⟨1, 1⟩⟩, ⟨9, ⟨0, 1⟩⟩], 10, []⟩ = some true ∧
    combine_rings_end same_ref
        ⟨[], ⟨[⟨1, ⟨0, 0⟩⟩, ⟨2, ⟨0, 1⟩⟩], 10, []⟩, [⟨[⟨9, ⟨0, 1⟩⟩, ⟨3, ⟨1, 1⟩⟩], 11, []⟩]⟩ =
      .exit 3 ∧
    combine_rings_start same_ref
        ⟨[], ⟨[⟨2, ⟨0, 1⟩⟩, ⟨3, ⟨1, 1⟩⟩], 10, []⟩, [⟨[⟨1, ⟨0, 0⟩⟩, ⟨9, ⟨0, 1⟩⟩], 11, []⟩]⟩ =
      .exit 3 ∧
    (¬ ∃ (nodeEq : NodeRef → NodeRef → Bool) (r : Option Nat × Rings),
      (∀ a b, nodeEq a b = true → a.ref = b.ref) ∧
      combine_rings_end nodeEq
          ⟨[], ⟨[⟨1, ⟨0, 0⟩⟩, ⟨2, ⟨0, 1⟩⟩], 10, []⟩, [⟨[⟨9, ⟨0, 1⟩⟩, ⟨3, ⟨1, 1⟩⟩], 11, []⟩]⟩ =
        .returned r) ∧
    (¬ ∃ (nodeEq : NodeRef → NodeRef → Bool) (r : Option Nat × Rings),
      (∀ a b, nodeEq a b = true → a.ref = b.ref) ∧
      combine_rings_start nodeEq
          ⟨[], ⟨[⟨2, ⟨0, 1⟩⟩, ⟨3, ⟨1, 1⟩⟩], 10, []⟩, [⟨[⟨1, ⟨0, 0⟩⟩, ⟨9, ⟨0, 1⟩⟩], 11, []⟩]⟩ =
        .returned r) ∧
    combine_rings_end same_location
        ⟨[], ⟨[⟨1, ⟨0, 0⟩⟩, ⟨2, ⟨0, 1⟩⟩], 10, []⟩, [⟨[⟨9, ⟨0, 1⟩⟩, ⟨3, ⟨1, 1⟩⟩], 11, []⟩]⟩ =
      .returned (some 1, ⟨[], ⟨[⟨1, ⟨0, 0⟩⟩, ⟨2, ⟨0, 1⟩⟩, ⟨3, ⟨1, 1⟩⟩], 10, []⟩, []⟩) := by
  refine ⟨⟨by decide, by decide⟩, by decide, by decide, by decide, ?_, ?_, by decide⟩
  · rintro ⟨nodeEq, r, hid, h⟩
    cases hq : nodeEq ⟨2, ⟨0, 1⟩⟩ ⟨9, ⟨0, 1⟩⟩ with
    | true => exact absurd (hid _ _ hq) (by decide)
    | false =>
      simp [combine_rings_end, combine_rings_end_loop, ProtoRing.merge_ring, ProtoRing.first,
        ProtoRing.last, Outcome.bind, hq] at h
  · rintro ⟨nodeEq, r, hid, h⟩
    cases hq : nodeEq ⟨9, ⟨0, 1⟩⟩ ⟨2, ⟨0, 1⟩⟩ with
    | true => exact absurd (hid _ _ hq) (by decide)
    | false =>
      simp [combine_rings_start, combine_rings_start_loop, ProtoRing.merge_ring,
        ProtoRing.swap_nodes, ProtoRing.first, ProtoRing.last, Outcome.bind, hq] at h

/-- C17. For every ring with nodes, `closed()` is true if and only if the location of `first()`
equals the location of `last()`; the node ids play no part, since two rings whose nodes lie at
the same locations get the same answer. A ring freshly built from a segment is closed exactly
when the two nodes of the segment lie at the same location. -/
theorem closed_iff_same_location :
    (∀ (r : ProtoRing) (f l : NodeRef), r.first = some f → r.last = some l →
      r.closed = some (decide (f.location = l.location)) ∧
      (r.closed = some true ↔ f.location = l.location)) ∧
    (∀ r r' : ProtoRing,
      r'.m_nodes.map (fun nr => nr.location) = r.m_nodes.map (fun nr => nr.location) →
      r'.closed = r.closed) ∧
    (∀ (segment : Nat) (first_cw second_cw : NodeRef),
      (ProtoRing.ofSegment segment first_cw second_cw).closed =
        some (decide (first_cw.location = second_cw.location)) ∧
      ((ProtoRing.ofSegment segment first_cw second_cw).closed = some true ↔
        first_cw.location = second_cw.location)) := by
  refine ⟨?_, ?_, ?_⟩
  · intro r f l hf hl
    simp only [ProtoRing.first] at hf
    simp only [ProtoRing.last] at hl
    simp [ProtoRing.closed, hf, hl]
  · intro r r' h
    have hhead : r'.m_nodes.head?.map (fun nr => nr.location) =
        r.m_nodes.head?.map (fun nr => nr.location) := by
      rw [← List.head?_map, ← List.head?_map, h]
    have hlast : r'.m_nodes.getLast?.map (fun nr => nr.location) =
        r.m_nodes.getLast?.map (fun nr => nr.location) := by
      rw [← List.getLast?_map, ← List.getLast?_map, h]
    unfold ProtoRing.closed
    cases h1 : r'.m_nodes.head? <;> cases h2 : r.m_nodes.head? <;>
      cases h3 : r'.m_nodes.getLast? <;> cases h4 : r.m_nodes.getLast? <;>
      simp_all
  · intro segment first_cw second_cw
    simp [ProtoRing.ofSegment, ProtoRing.add_location_end, ProtoRing.closed]

/-- Witness for C17: the ring `[1, 2, 3, 4]` whose nodes 1 and 4 are distinct nodes at the same
location is closed. -/
theorem closed_iff_same_location_witness :
    ProtoRing.closed ⟨[⟨1, ⟨0, 0⟩⟩, ⟨2, ⟨0, 1⟩⟩, ⟨3, ⟨1, 1⟩⟩, ⟨4, ⟨0, 0⟩⟩], 10, []⟩ = some true :=
  ((closed_iff_same_location.1 ⟨[⟨1, ⟨0, 0⟩⟩, ⟨2, ⟨0, 1⟩⟩, ⟨3, ⟨1, 1⟩⟩, ⟨4, ⟨0, 0⟩⟩], 10, []⟩
    ⟨1, ⟨0, 0⟩⟩ ⟨4, ⟨0, 0⟩⟩ rfl rfl).2).mpr rfl

/-- C18. A successful `combine_rings_end` or `combine_rings_start` changes only the nodes of
`ring` and removes only the matched ring: `ring` keeps its seed segment and its inner rings,
every other ring of the collection is the same ring afterwards (nodes, seed segment, inner
rings), and the surviving rings keep their order. -/
theorem combine_rings_frame (nodeEq : NodeRef → NodeRef → Bool) :
    (∀ c p c', combine_rings_end nodeEq c = .returned (some p, c') → frame_kept c p c') ∧
    (∀ c p c', combine_rings_start nodeEq c = .returned (some p, c') → frame_kept c p c') := by
  constructor
  · intro c p c' h
    obtain ⟨_, _, hcases⟩ := combine_rings_end_returned nodeEq c (some p) c' h
    rcases hcases with ⟨hp, _, _⟩ | ⟨k, m, hk, hp, hc⟩ | ⟨k, m, hk, hp, hc⟩
    · cases hp
    · cases hp
      rw [hc]
      exact frame_kept_before c p m _ hk rfl rfl
    · cases hp
      rw [hc]
      exact frame_kept_after c k m _ hk rfl rfl
  · intro c p c' h
    obtain ⟨_, _, hcases⟩ := combine_rings_start_returned nodeEq c (some p) c' h
    rcases hcases with ⟨hp, _, _⟩ | ⟨k, m, hk, hp, hc⟩ | ⟨k, m, hk, hp, hc⟩
    · cases hp
    · cases hp
      rw [hc]
      exact frame_kept_before c p m _ hk rfl rfl
    · cases hp
      rw [hc]
      exact frame_kept_after c k m _ hk rfl rfl

/-- Witness for C18: `combine_rings_start` on the collection `[m, x, ring]` with `m = [1, 2]`,
`ring = [2, 3]` and a ring `x` elsewhere: `x` is left as it is, and `ring` keeps its seed
segment 12 and its inner ring 4. -/
theorem combine_rings_frame_witness :
    combine_rings_start same_ref
        ⟨[⟨[⟨1, ⟨0, 0⟩⟩, ⟨2, ⟨0, 1⟩⟩], 10, []⟩, ⟨[⟨5, ⟨7, 7⟩⟩, ⟨6, ⟨8, 8⟩⟩], 11, [9]⟩],
          ⟨[⟨2, ⟨0, 1⟩⟩, ⟨3, ⟨1, 1⟩⟩], 12, [4]⟩, []⟩ =
      .returned (some 0, ⟨[⟨[⟨5, ⟨7, 7⟩⟩, ⟨6, ⟨8, 8⟩⟩], 11, [9]⟩],
        ⟨[⟨1, ⟨0, 0⟩⟩, ⟨2, ⟨0, 1⟩⟩, ⟨3, ⟨1, 1⟩⟩], 12, [4]⟩, []⟩) ∧
    frame_kept
      ⟨[⟨[⟨1, ⟨0, 0⟩⟩, ⟨2, ⟨0, 1⟩⟩], 10, []⟩, ⟨[⟨5, ⟨7, 7⟩⟩, ⟨6, ⟨8, 8⟩⟩], 11, [9]⟩],
        ⟨[⟨2, ⟨0, 1⟩⟩, ⟨3, ⟨1, 1⟩⟩], 12, [4]⟩, []⟩ 0
      ⟨[⟨[⟨5, ⟨7, 7⟩⟩, ⟨6, ⟨8, 8⟩⟩], 11, [9]⟩],
        ⟨[⟨1, ⟨0, 0⟩⟩, ⟨2, ⟨0, 1⟩⟩, ⟨3, ⟨1, 1⟩⟩], 12, [4]⟩, []⟩ :=
  have h : combine_rings_start same_ref
      ⟨[⟨[⟨1, ⟨0, 0⟩⟩, ⟨2, ⟨0, 1⟩⟩], 10, []⟩, ⟨[⟨5, ⟨7, 7⟩⟩, ⟨6, ⟨8, 8⟩⟩], 11, [9]⟩],
        ⟨[⟨2, ⟨0, 1⟩⟩, ⟨3, ⟨1, 1⟩⟩], 12, [4]⟩, []⟩ =
      .returned (some 0, ⟨[⟨[⟨5, ⟨7, 7⟩⟩, ⟨6, ⟨8, 8⟩⟩], 11, [9]⟩],
        ⟨[⟨1, ⟨0, 0⟩⟩, ⟨2, ⟨0, 1⟩⟩, ⟨3, ⟨1, 1⟩⟩], 12, [4]⟩, []⟩) := by decide
  ⟨h, (combine_rings_frame same_ref).2 _ _ _ h⟩

/-- C19. A ring built from a segment has exactly the two nodes `first_cw`, `second_cw`, in
this order. `add_location_end`, `add_location_start`, `swap_nodes`, `merge_ring`,
`combine_rings_end` and `combine_rings_start`, applied to rings of at least two nodes, leave
every surviving ring with at least two nodes, and a ring of at least two nodes has a `first()`
and a `last()`. -/
theorem min_length_invariant (nodeEq : NodeRef → NodeRef → Bool) :
    (∀ (segment : Nat) (first_cw second_cw : NodeRef),
      (ProtoRing.ofSegment segment first_cw second_cw).m_nodes = [first_cw, second_cw]) ∧
    (∀ (r : ProtoRing) (nr : NodeRef), 2 ≤ r.m_nodes.length →
      2 ≤ (r.add_location_end nr).m_nodes.length ∧
      2 ≤ (r.add_location_start nr).m_nodes.length) ∧
    (∀ r o : ProtoRing, 2 ≤ r.m_nodes.length → 2 ≤ o.m_nodes.length →
      2 ≤ (r.swap_nodes o).1.m_nodes.length ∧ 2 ≤ (r.swap_nodes o).2.m_nodes.length) ∧
    (∀ (r o : ProtoRing) (res : ProtoRing × ProtoRing),
      2 ≤ r.m_nodes.length → 2 ≤ o.m_nodes.length →
      r.merge_ring nodeEq o = .returned res →
      2 ≤ res.1.m_nodes.length ∧ 2 ≤ res.2.m_nodes.length) ∧
    (∀ (c : Rings) (p : Option Nat) (c' : Rings), (∀ x ∈ c.toList, 2 ≤ x.m_nodes.length) →
      combine_rings_end nodeEq c = .returned (p, c') →
      ∀ x ∈ c'.toList, 2 ≤ x.m_nodes.length) ∧
    (∀ (c : Rings) (p : Option Nat) (c' : Rings), (∀ x ∈ c.toList, 2 ≤ x.m_nodes.length) →
      combine_rings_start nodeEq c = .returned (p, c') →
      ∀ x ∈ c'.toList, 2 ≤ x.m_nodes.length) ∧
    (∀ r : ProtoRing, 2 ≤ r.m_nodes.length → r.first ≠ none ∧ r.last ≠ none) := by
  refine ⟨?_, ?_, ?_, ?_, ?_, ?_, ?_⟩
  · intro segment first_cw second_cw
    simp [ProtoRing.ofSegment, ProtoRing.add_location_end]
  · intro r nr h
    simp only [ProtoRing.add_location_end, ProtoRing.add_location_start, List.length_append,
      List.length_cons, List.length_nil]
    omega
  · intro r o hr ho
    exact ⟨ho, hr⟩
  · intro r o res hr ho h
    rw [merge_ring_returned nodeEq r o res h]
    simp only [List.length_append, List.length_tail]
    omega
  · intro c p c' hall h
    obtain ⟨_, _, hcases⟩ := combine_rings_end_returned nodeEq c p c' h
    have hring : 2 ≤ c.ring.m_nodes.length := hall c.ring (by simp [Rings.toList])
    rcases hcases with ⟨_, hc, _⟩ | ⟨k, m, _, _, hc⟩ | ⟨k, m, _, _, hc⟩
    · rw [hc]; exact hall
    · exact two_le_of_combine c c' _ _ _ hall (by simp only [List.length_append]; omega)
        (fun x hx => List.mem_of_mem_eraseIdx hx) (fun x hx => hx) hc
    · exact two_le_of_combine c c' _ _ _ hall (by simp only [List.length_append]; omega)
        (fun x hx => hx) (fun x hx => List.mem_of_mem_eraseIdx hx) hc
  · intro c p c' hall h
    obtain ⟨_, _, hcases⟩ := combine_rings_start_returned nodeEq c p c' h
    rcases hcases with ⟨_, hc, _⟩ | ⟨k, m, hk, _, hc⟩ | ⟨k, m, hk, _, hc⟩
    · rw [hc]; exact hall
    · have hm : 2 ≤ m.m_nodes.length :=
        hall m (by simp [Rings.toList, List.getElem?_mem hk])
      exact two_le_of_combine c c' _ _ _ hall (by simp only [List.length_append]; omega)
        (fun x hx => List.mem_of_mem_eraseIdx hx) (fun x hx => hx) hc
    · have hm : 2 ≤ m.m_nodes.length :=
        hall m (by simp [Rings.toList, List.getElem?_mem hk])
      exact two_le_of_combine c c' _ _ _ hall (by simp only [List.length_append]; omega)
        (fun x hx => hx) (fun x hx => List.mem_of_mem_eraseIdx hx) hc
  · intro r h
    have hne : r.m_nodes ≠ [] := by
      intro h0
      simp [h0] at h
    obtain ⟨f, hf⟩ := first_of_ne_nil r hne
    obtain ⟨l, hl⟩ := last_of_ne_nil r hne
    simp [hf, hl]

/-- Witness for C19: the ring of the segment from node 1 to node 2, and the collection after
`combine_rings_end` has merged `[2, 3]` into it. -/
theorem min_length_invariant_witness :
    (ProtoRing.ofSegment 10 ⟨1, ⟨0, 0⟩⟩ ⟨2, ⟨0, 1⟩⟩).m_nodes = [⟨1, ⟨0, 0⟩⟩, ⟨2, ⟨0, 1⟩⟩] ∧
    ∀ x ∈ Rings.toList ⟨[], ⟨[⟨1, ⟨0, 0⟩⟩, ⟨2, ⟨0, 1⟩⟩, ⟨3, ⟨1, 1⟩⟩], 10, []⟩,
        [⟨[⟨5, ⟨7, 7⟩⟩, ⟨6, ⟨8, 8⟩⟩], 12, []⟩]⟩, 2 ≤ x.m_nodes.length :=
  ⟨(min_length_invariant same_ref).1 10 ⟨1, ⟨0, 0⟩⟩ ⟨2, ⟨0, 1⟩⟩,
    (min_length_invariant same_ref).2.2.2.2.1
      ⟨[], ProtoRing.ofSegment 10 ⟨1, ⟨0, 0⟩⟩ ⟨2, ⟨0, 1⟩⟩,
        [⟨[⟨2, ⟨0, 1⟩⟩, ⟨3, ⟨1, 1⟩⟩], 11, []⟩, ⟨[⟨5, ⟨7, 7⟩⟩, ⟨6, ⟨8, 8⟩⟩], 12, []⟩]⟩
      (some 1) _ (by decide) (by decide)⟩

/-- C20, evaluation at the failing input. The ring around the whole coordinate range of the
planet (all coordinates are 32 bit integers): after the first two iterations of the loop of
`is_outer` the sum is 6480000000000000000; the third iteration takes the exact sum to
9720000000000000000, which is above 2^63 - 1, and the 64 bit sum to -8726744073709551616. The
classification, outer, is not the sign test on the exact shoelace sum
12960000000000000000. -/
theorem is_outer_running_sum_overflow :
    (∀ nr ∈ ([⟨1, ⟨-1800000000, -900000000⟩⟩, ⟨2, ⟨1800000000, -900000000⟩⟩,
        ⟨3, ⟨1800000000, 900000000⟩⟩, ⟨4, ⟨-1800000000, 900000000⟩⟩,
        ⟨1, ⟨-1800000000, -900000000⟩⟩] : List NodeRef), nr.location.inRange) ∧
    (List.range 2).foldl (ProtoRing.is_outer_step ⟨[⟨1, ⟨-1800000000, -900000000⟩⟩, ⟨2, ⟨1800000000, -900000000⟩⟩,
        ⟨3, ⟨1800000000, 900000000⟩⟩, ⟨4, ⟨-1800000000, 900000000⟩⟩,
        ⟨1, ⟨-1800000000, -900000000⟩⟩], 0, []⟩) 0 = 6480000000000000000 ∧
    (∑ i in Finset.range 3, cross (([⟨1, ⟨-1800000000, -900000000⟩⟩, ⟨2, ⟨1800000000, -900000000⟩⟩,
        ⟨3, ⟨1800000000, 900000000⟩⟩, ⟨4, ⟨-1800000000, 900000000⟩⟩,
        ⟨1, ⟨-1800000000, -900000000⟩⟩] : List NodeRef).getD i ⟨0, ⟨0, 0⟩⟩)
      (([⟨1, ⟨-1800000000, -900000000⟩⟩, ⟨2, ⟨1800000000, -900000000⟩⟩,
        ⟨3, ⟨1800000000, 900000000⟩⟩, ⟨4, ⟨-1800000000, 900000000⟩⟩,
        ⟨1, ⟨-1800000000, -900000000⟩⟩] : List NodeRef).getD ((i + 1) % 5) ⟨0, ⟨0, 0⟩⟩)) = 9720000000000000000 ∧
    (2 : Int) ^ 63 - 1 < 9720000000000000000 ∧
    (List.range 3).foldl (ProtoRing.is_outer_step ⟨[⟨1, ⟨-1800000000, -900000000⟩⟩, ⟨2, ⟨1800000000, -900000000⟩⟩,
        ⟨3, ⟨1800000000, 900000000⟩⟩, ⟨4, ⟨-1800000000, 900000000⟩⟩,
        ⟨1, ⟨-1800000000, -900000000⟩⟩], 0, []⟩) 0 = -8726744073709551616 ∧
    shoelace [⟨1, ⟨-1800000000, -900000000⟩⟩, ⟨2, ⟨1800000000, -900000000⟩⟩,
        ⟨3, ⟨1800000000, 900000000⟩⟩, ⟨4, ⟨-1800000000, 900000000⟩⟩,
        ⟨1, ⟨-1800000000, -900000000⟩⟩] = 12960000000000000000 ∧
    ProtoRing.is_outer ⟨[⟨1, ⟨-1800000000, -900000000⟩⟩, ⟨2, ⟨1800000000, -900000000⟩⟩,
        ⟨3, ⟨1800000000, 900000000⟩⟩, ⟨4, ⟨-1800000000, 900000000⟩⟩,
        ⟨1, ⟨-1800000000, -900000000⟩⟩], 0, []⟩ = true ∧
    decide (shoelace [⟨1, ⟨-1800000000, -900000000⟩⟩, ⟨2, ⟨1800000000, -900000000⟩⟩,
        ⟨3, ⟨1800000000, 900000000⟩⟩, ⟨4, ⟨-1800000000, 900000000⟩⟩,
        ⟨1, ⟨-1800000000, -900000000⟩⟩] ≤ 0) = false := by
  have hs : shoelace [⟨1, ⟨-1800000000, -900000000⟩⟩, ⟨2, ⟨1800000000, -900000000⟩⟩,
        ⟨3, ⟨1800000000, 900000000⟩⟩, ⟨4, ⟨-1800000000, 900000000⟩⟩,
        ⟨1, ⟨-1800000000, -900000000⟩⟩] = 12960000000000000000 := by
    simp [shoelace, Finset.sum_range_succ, cross]
  refine ⟨?_, ?_, ?_, by norm_num, ?_, hs, ?_, ?_⟩
  · simp [Location.inRange]
  · rw [ProtoRing.foldl_is_outer_step]
    simp [Finset.sum_range_succ, cross, ProtoRing.node, ProtoRing.wrap64]
  · simp [Finset.sum_range_succ, cross]
  · rw [ProtoRing.foldl_is_outer_step]
    simp [Finset.sum_range_succ, cross, ProtoRing.node, ProtoRing.wrap64]
  · rw [ProtoRing.is_outer, ProtoRing.is_outer_sum_eq, hs]
    norm_num [ProtoRing.wrap64]
  · rw [hs]
    decide

/-- C15. Let `p_0, p_1, ..., p_(k-1)` (here `p0 :: p1 :: t`, so `k = t.length + 2`) lie at
pairwise distinct locations, let `ring` be `[p_0, p_1]` and let the other rings of the
collection be, in any order and at any place, the two-node rings
`[p_1, p_2], ..., [p_(k-1), p_0]`. With an `operator==` under which every node equals itself,
`k - 1` calls of `combine_rings_end` on `ring` all return a matched ring, and afterwards
`ring` is the only ring of the collection, its nodes are `[p_0, p_1, ..., p_(k-1), p_0]`, and it
is closed. -/
theorem combine_rings_end_stitches_chain (nodeEq : NodeRef → NodeRef → Bool)
    (hrefl : ∀ a, nodeEq a a = true) (p0 p1 : NodeRef) (t : List NodeRef) (c : Rings)
    (hdistinct : ((p0 :: p1 :: t).map (fun nr => nr.location)).Nodup)
    (hring : c.ring.m_nodes = [p0, p1])
    (hothers : ((c.before ++ c.after).map (fun r => r.m_nodes)).Perm
      (chain_nodes (p1 :: (t ++ [p0])))) :
    ∃ (ptrs : List (Option Nat)) (final : ProtoRing),
      combine_rings_end_times nodeEq (t.length + 1) c = .returned (ptrs, ⟨[], final, []⟩) ∧
      ptrs.length = t.length + 1 ∧ (∀ p ∈ ptrs, p ≠ none) ∧
      final.m_nodes = p0 :: p1 :: (t ++ [p0]) ∧
      final.closed = some true ∧
      final.m_first_segment = c.ring.m_first_segment ∧ final.m_inner = c.ring.m_inner := by
  have hl : c.ring.last = some p1 := by simp [ProtoRing.last, hring]
  have hnodup : (((p1 :: (t ++ [p0])).dropLast).map (fun nr => nr.location)).Nodup := by
    have hdrop : (p1 :: (t ++ [p0])).dropLast = p1 :: t := by
      rw [← List.cons_append, List.dropLast_concat]
    rw [hdrop]
    rw [List.map_cons, List.nodup_cons] at hdistinct
    exact hdistinct.2
  obtain ⟨ptrs, hcall, hlen, hsome⟩ :=
    combine_rings_end_times_chain nodeEq hrefl (t ++ [p0]) p1 c hl hothers hnodup
  refine ⟨ptrs, { c.ring with m_nodes := c.ring.m_nodes ++ (t ++ [p0]) }, ?_, ?_, hsome, ?_, ?_,
    rfl, rfl⟩
  · simpa using hcall
  · simpa using hlen
  · simp [hring]
  · have hlast : (p0 :: p1 :: (t ++ [p0])).getLast? = some p0 := by
      have : p0 :: p1 :: (t ++ [p0]) = (p0 :: p1 :: t) ++ [p0] := by simp
      rw [this, List.getLast?_concat]
    simp only [ProtoRing.closed, hring, List.cons_append, List.nil_append, List.head?_cons,
      hlast]
    simp

/-- Witness for C15: the segments (0,0)-(0,1), (0,1)-(1,1), (1,1)-(1,0), (1,0)-(0,0), the first
as `ring` and the others in the collection out of order. Three calls of `combine_rings_end`
leave the single ring `[(0,0), (0,1), (1,1), (1,0), (0,0)]`, which is closed and classified
outer. -/
theorem combine_rings_end_stitches_chain_witness :
    ∃ (ptrs : List (Option Nat)) (final : ProtoRing),
      combine_rings_end_times same_ref 3
          ⟨[⟨[⟨3, ⟨1, 1⟩⟩, ⟨4, ⟨1, 0⟩⟩], 12, []⟩], ⟨[⟨1, ⟨0, 0⟩⟩, ⟨2, ⟨0, 1⟩⟩], 10, []⟩,
            [⟨[⟨4, ⟨1, 0⟩⟩, ⟨1, ⟨0, 0⟩⟩], 13, []⟩, ⟨[⟨2, ⟨0, 1⟩⟩, ⟨3, ⟨1, 1⟩⟩], 11, []⟩]⟩ =
        .returned (ptrs, ⟨[], final, []⟩) ∧
      final.m_nodes =
        [⟨1, ⟨0, 0⟩⟩, ⟨2, ⟨0, 1⟩⟩, ⟨3, ⟨1, 1⟩⟩, ⟨4, ⟨1, 0⟩⟩, ⟨1, ⟨0, 0⟩⟩] ∧
      final.closed = some true ∧
      final.is_outer = true := by
  obtain ⟨ptrs, final, h1, _, _, h4, h5, _, _⟩ := combine_rings_end_stitches_chain same_ref
    (fun a => by simp [same_ref]) ⟨1, ⟨0, 0⟩⟩ ⟨2, ⟨0, 1⟩⟩ [⟨3, ⟨1, 1⟩⟩, ⟨4, ⟨1, 0⟩⟩]
    ⟨[⟨[⟨3, ⟨1, 1⟩⟩, ⟨4, ⟨1, 0⟩⟩], 12, []⟩], ⟨[⟨1, ⟨0, 0⟩⟩, ⟨2, ⟨0, 1⟩⟩], 10, []⟩,
      [⟨[⟨4, ⟨1, 0⟩⟩, ⟨1, ⟨0, 0⟩⟩], 13, []⟩, ⟨[⟨2, ⟨0, 1⟩⟩, ⟨3, ⟨1, 1⟩⟩], 11, []⟩]⟩
    (by decide) rfl (by decide)
  refine ⟨ptrs, final, h1, by simpa using h4, h5, ?_⟩
  have hs : shoelace final.m_nodes = -2 := by
    rw [h4]
    simp [shoelace, Finset.sum_range_succ, cross]
  rw [ProtoRing.is_outer, ProtoRing.is_outer_sum_eq, hs]
  decide

/-- C16. Three rings `[A, B]`, `[B, C]`, `[C, A]` over pairwise distinct locations, stored in
the collection in any order, with any one of them as the working ring: with an `operator==`
under which every node equals itself, the stitcher (attempt `combine_rings_end`, then
`combine_rings_start`, until the ring is closed or neither matches) ends, for every fuel of at
least two rounds, with the working ring as the only ring of the collection; the ring is closed,
and its nodes without the closing one are a rotation of `A, B, C`. -/
theorem stitch_three_fragments (nodeEq : NodeRef → NodeRef → Bool)
    (hrefl : ∀ a, nodeEq a a = true) (A B C : NodeRef)
    (hAB : A.location ≠ B.location) (hBC : B.location ≠ C.location)
    (hAC : A.location ≠ C.location) (fa fb fc : ProtoRing)
    (hfa : fa.m_nodes = [A, B]) (hfb : fb.m_nodes = [B, C]) (hfc : fc.m_nodes = [C, A])
    (c : Rings) (hc : c.toList.Perm [fa, fb, fc]) :
    ∃ final : ProtoRing,
      (∀ fuel, 2 ≤ fuel → stitch nodeEq fuel c = some (.returned ⟨[], final, []⟩)) ∧
      final.closed = some true ∧
      (∃ n, final.m_nodes.dropLast.rotate n = [A, B, C]) ∧
      final.m_first_segment = c.ring.m_first_segment ∧ final.m_inner = c.ring.m_inner := by
  obtain ⟨before, ring, after⟩ := c
  simp only [Rings.toList] at hc
  have hperm : (ring :: (before ++ after)).Perm [fa, fb, fc] := List.perm_middle.symm.trans hc
  have hmem : ring ∈ [fa, fb, fc] := hperm.mem_iff.mp (by simp)
  simp only [List.mem_cons, List.mem_singleton, List.not_mem_nil, or_false] at hmem
  have hfuel : ∀ (final : ProtoRing),
      (∀ fuel, stitch nodeEq (fuel + 2) ⟨before, ring, after⟩ =
        some (.returned ⟨[], final, []⟩)) →
      ∀ fuel, 2 ≤ fuel → stitch nodeEq fuel ⟨before, ring, after⟩ =
        some (.returned ⟨[], final, []⟩) := by
    intro final h fuel hf
    obtain ⟨d, rfl⟩ : ∃ d, fuel = d + 2 := ⟨fuel - 2, by omega⟩
    exact h d
  rcases hmem with rfl | rfl | rfl
  · have hothers : (before ++ after).Perm [fb, fc] := (List.perm_cons ring).mp hperm
    refine ⟨{ ring with m_nodes := [C, A, B, C] }, hfuel _ (fun fuel =>
      stitch_three nodeEq hrefl A B C hAB hBC hAC ring fb fc hfa hfb hfc before after
        (perm_pair_cases _ _ _ hothers) fuel), ?_, ⟨1, ?_⟩, rfl, rfl⟩
    · simp [ProtoRing.closed]
    · simp [List.rotate]
  · have hothers : (before ++ after).Perm [fc, fa] := by
      have h1 : (ring :: (before ++ after)).Perm (ring :: [fc, fa]) :=
        hperm.trans ((List.Perm.swap ring fa [fc]).trans
          (List.Perm.cons ring (List.Perm.swap fc fa [])))
      exact (List.perm_cons ring).mp h1
    refine ⟨{ ring with m_nodes := [A, B, C, A] }, hfuel _ (fun fuel =>
      stitch_three nodeEq hrefl B C A hBC (Ne.symm hAC) (Ne.symm hAB) ring fc fa hfb hfc hfa
        before after (perm_pair_cases _ _ _ hothers) fuel), ?_, ⟨0, ?_⟩, rfl, rfl⟩
    · simp [ProtoRing.closed]
    · simp
  · have hothers : (before ++ after).Perm [fa, fb] := by
      have hmid : ([fa, fb] ++ ring :: []).Perm (ring :: ([fa, fb] ++ [])) := List.perm_middle
      have h1 : (ring :: (before ++ after)).Perm (ring :: [fa, fb]) := hperm.trans hmid
      exact (List.perm_cons ring).mp h1
    refine ⟨{ ring with m_nodes := [B, C, A, B] }, hfuel _ (fun fuel =>
      stitch_three nodeEq hrefl C A B (Ne.symm hAC) hAB (Ne.symm hBC) ring fa fb hfc hfa hfb
        before after (perm_pair_cases _ _ _ hothers) fuel), ?_, ⟨2, ?_⟩, rfl, rfl⟩
    · simp [ProtoRing.closed]
    · simp [List.rotate]

/-- Witness for C16: the rings `[2, 3]`, `[1, 2]`, `[3, 1]` (nodes written by id, at three
distinct locations) with `[1, 2]`, in the middle, as the working ring: the stitcher leaves the
closed ring `[3, 1, 2, 3]`. -/
theorem stitch_three_fragments_witness :
    ∃ final : ProtoRing,
      stitch same_ref 2
          ⟨[⟨[⟨2, ⟨0, 1⟩⟩, ⟨3, ⟨1, 1⟩⟩], 11, []⟩], ⟨[⟨1, ⟨0, 0⟩⟩, ⟨2, ⟨0, 1⟩⟩], 10, []⟩,
            [⟨[⟨3, ⟨1, 1⟩⟩, ⟨1, ⟨0, 0⟩⟩], 12, []⟩]⟩ = some (.returned ⟨[], final, []⟩) ∧
      final.closed = some true ∧
      ∃ n, final.m_nodes.dropLast.rotate n = [⟨1, ⟨0, 0⟩⟩, ⟨2, ⟨0, 1⟩⟩, ⟨3, ⟨1, 1⟩⟩] := by
  obtain ⟨final, h1, h2, h3, _, _⟩ := stitch_three_fragments same_ref
    (fun a => by simp [same_ref]) ⟨1, ⟨0, 0⟩⟩ ⟨2, ⟨0, 1⟩⟩ ⟨3, ⟨1, 1⟩⟩
    (by decide) (by decide) (by decide)
    ⟨[⟨1, ⟨0, 0⟩⟩, ⟨2, ⟨0, 1⟩⟩], 10, []⟩ ⟨[⟨2, ⟨0, 1⟩⟩, ⟨3, ⟨1, 1⟩⟩], 11, []⟩
    ⟨[⟨3, ⟨1, 1⟩⟩, ⟨1, ⟨0, 0⟩⟩], 12, []⟩ rfl rfl rfl
    ⟨[⟨[⟨2, ⟨0, 1⟩⟩, ⟨3, ⟨1, 1⟩⟩], 11, []⟩], ⟨[⟨1, ⟨0, 0⟩⟩, ⟨2, ⟨0, 1⟩⟩], 10, []⟩,
      [⟨[⟨3, ⟨1, 1⟩⟩, ⟨1, ⟨0, 0⟩⟩], 12, []⟩]⟩ (by decide)
  exact ⟨final, h1 2 (Nat.le_refl 2), h2, h3⟩

end Osmium
